import Mathlib

/-!
Shallow embedding of the `dfly::detail` B+tree node primitives
(`BPNodeLayout`, `BPTreeNode`) and proofs of the specification claims
about them.

A physical node is a 256-byte block: an 8-byte header holding the item
count (7 bits) and the leaf flag (1 bit), followed by the packed key
slots and, for inner nodes, the packed child-pointer slots.  We model
the key-slot array and the child-pointer-slot array as total functions
from slot index; only slots `< num_items` (respectively `≤ num_items`
for children) are meaningful, exactly as in the C++ code where the
remaining bytes hold garbage.  Child pointers are modelled as `Nat`
identifiers, `0` standing for `nullptr`.

The in-place mutating member functions of `BPTreeNode` become pure
functions from the affected nodes to the updated nodes.  Functions that
dereference sibling child pointers (`RebalanceChild`,
`MergeOrRebalanceChild`) receive the sibling nodes explicitly and
return the updated versions together with a tag saying which node a
returned pointer aliases.  `for` loops are translated with the `forUp` /
`forDown` combinators, which iterate the loop body in source order.
-/

namespace Dfly

set_option maxHeartbeats 1000000

/-- `constexpr uint16_t kBPNodeSize = 256;` -/
def kBPNodeSize : Nat := 256

/-- `kKeyOffset = sizeof(uint64_t)`: 8 bytes of metadata before the keys. -/
def kKeyOffset : Nat := 8

/-- `sizeof(void*)` on the 64-bit targets the code is built for. -/
def kPtrSize : Nat := 8

/-- `kMaxLeafKeys = (kBPNodeSize - kKeyOffset) / kKeySize`, as a function of
the key size `s = sizeof(T)`. -/
def kMaxLeafKeys (s : Nat) : Nat := (kBPNodeSize - kKeyOffset) / s

/-- `kMinLeafKeys = kMaxLeafKeys / 2`. -/
def kMinLeafKeys (s : Nat) : Nat := kMaxLeafKeys s / 2

/-- `kMaxInnerKeys = (kBPNodeSize - sizeof(void*) - kKeyOffset) / (kKeySize + sizeof(void*))`. -/
def kMaxInnerKeys (s : Nat) : Nat := (kBPNodeSize - kPtrSize - kKeyOffset) / (s + kPtrSize)

/-- `kMinInnerKeys = kMaxInnerKeys / 2`. -/
def kMinInnerKeys (s : Nat) : Nat := kMaxInnerKeys s / 2

/-- Model of `BPTreeNode<T>`: the slot arrays are total functions, the
header carries the item count and the leaf flag.  Child pointers are
`Nat` identifiers with `0` for `nullptr`. -/
structure BPTreeNode (K : Type) where
  keys : Nat → K
  children : Nat → Nat
  num_items : Nat
  leaf : Bool

namespace BPTreeNode

variable {K : Type}

/-- `SetKey(index, item)`. -/
def setKey (n : BPTreeNode K) (index : Nat) (item : K) : BPTreeNode K :=
  { n with keys := Function.update n.keys index item }

/-- `SetChild(i, child)`. -/
def setChild (n : BPTreeNode K) (i : Nat) (child : Nat) : BPTreeNode K :=
  { n with children := Function.update n.children i child }

/-- The sequence of valid keys of a node: slots `[0, num_items)`. -/
def keyList (n : BPTreeNode K) : List K :=
  (List.range n.num_items).map n.keys

/-- The sequence of valid child pointers of an inner node:
slots `[0, num_items]`. -/
def childList (n : BPTreeNode K) : List Nat :=
  (List.range (n.num_items + 1)).map n.children

/-- `MaxItems()`, as a function of the key size `s`. -/
def MaxItems (s : Nat) (n : BPTreeNode K) : Nat :=
  if n.leaf then kMaxLeafKeys s else kMaxInnerKeys s

/-- `MinItems()`. -/
def MinItems (s : Nat) (n : BPTreeNode K) : Nat :=
  if n.leaf then kMinLeafKeys s else kMinInnerKeys s

/-- `AvailableSlotCount() = MaxItems() - num_items_`. -/
def AvailableSlotCount (s : Nat) (n : BPTreeNode K) : Nat :=
  MaxItems s n - n.num_items

@[simp] theorem setKey_num_items (n : BPTreeNode K) (i : Nat) (k : K) :
    (n.setKey i k).num_items = n.num_items := rfl

@[simp] theorem setKey_leaf (n : BPTreeNode K) (i : Nat) (k : K) :
    (n.setKey i k).leaf = n.leaf := rfl

@[simp] theorem setKey_children (n : BPTreeNode K) (i : Nat) (k : K) :
    (n.setKey i k).children = n.children := rfl

@[simp] theorem setChild_num_items (n : BPTreeNode K) (i c : Nat) :
    (n.setChild i c).num_items = n.num_items := rfl

@[simp] theorem setChild_leaf (n : BPTreeNode K) (i c : Nat) :
    (n.setChild i c).leaf = n.leaf := rfl

@[simp] theorem setChild_keys (n : BPTreeNode K) (i c : Nat) :
    (n.setChild i c).keys = n.keys := rfl

@[simp] theorem withNum_keys (m : BPTreeNode K) (c : Nat) :
    ({ m with num_items := c } : BPTreeNode K).keys = m.keys := rfl

@[simp] theorem withNum_children (m : BPTreeNode K) (c : Nat) :
    ({ m with num_items := c } : BPTreeNode K).children = m.children := rfl

@[simp] theorem withNum_num_items (m : BPTreeNode K) (c : Nat) :
    ({ m with num_items := c } : BPTreeNode K).num_items = c := rfl

@[simp] theorem withNum_leaf (m : BPTreeNode K) (c : Nat) :
    ({ m with num_items := c } : BPTreeNode K).leaf = m.leaf := rfl

theorem setKey_keys_same (n : BPTreeNode K) (i : Nat) (k : K) :
    (n.setKey i k).keys i = k := by
  simp [setKey]

theorem setKey_keys_other (n : BPTreeNode K) (i : Nat) (k : K) {j : Nat} (h : j ≠ i) :
    (n.setKey i k).keys j = n.keys j := by
  simp [setKey, Function.update_noteq h]

theorem setChild_children_same (n : BPTreeNode K) (i c : Nat) :
    (n.setChild i c).children i = c := by
  simp [setChild]

theorem setChild_children_other (n : BPTreeNode K) (i c : Nat) {j : Nat} (h : j ≠ i) :
    (n.setChild i c).children j = n.children j := by
  simp [setChild, Function.update_noteq h]

end BPTreeNode

/-- Iterate a loop body `f` over `i = lo, lo+1, ..., hi-1` in order,
threading the state: the translation of `for (unsigned i = lo; i < hi; ++i)`. -/
def forUp {α : Type} (lo hi : Nat) (f : Nat → α → α) (a : α) : α :=
  ((List.range (hi - lo)).map (lo + ·)).foldl (fun s i => f i s) a

/-- Iterate a loop body `f` over `i = hi-1, hi-2, ..., 0` in order,
threading the state: the translation of `for (int i = hi - 1; i >= 0; --i)`. -/
def forDown {α : Type} (hi : Nat) (f : Nat → α → α) (a : α) : α :=
  ((List.range hi).reverse).foldl (fun s i => f i s) a

theorem forUp_of_le {α : Type} {lo hi : Nat} (h : hi ≤ lo) (f : Nat → α → α) (a : α) :
    forUp lo hi f a = a := by
  simp [forUp, Nat.sub_eq_zero_of_le h]

theorem forUp_succ {α : Type} {lo hi : Nat} (h : lo ≤ hi) (f : Nat → α → α) (a : α) :
    forUp lo (hi + 1) f a = f hi (forUp lo hi f a) := by
  have h1 : hi + 1 - lo = (hi - lo) + 1 := by omega
  have h2 : lo + (hi - lo) = hi := by omega
  simp [forUp, h1, List.range_succ, h2]

theorem forDown_succ {α : Type} (hi : Nat) (f : Nat → α → α) (a : α) :
    forDown (hi + 1) f a = forDown hi f (f hi a) := by
  simp [forDown, List.range_succ]

theorem forDown_zero {α : Type} (f : Nat → α → α) (a : α) :
    forDown 0 f a = a := rfl

/-- Anything preserved by every loop-body step is preserved by `forUp`. -/
theorem forUp_preserve {α : Type} (P : α → Prop) {lo hi : Nat} {f : Nat → α → α}
    (hf : ∀ i a, lo ≤ i → i < hi → P a → P (f i a)) {a : α} (ha : P a) :
    P (forUp lo hi f a) := by
  rcases Nat.le_total hi lo with h | h
  · rw [forUp_of_le h]; exact ha
  · obtain ⟨d, rfl⟩ := Nat.exists_eq_add_of_le h
    clear h
    induction d with
    | zero => rw [Nat.add_zero, forUp_of_le (Nat.le_refl _)]; exact ha
    | succ d ih =>
      have hstep : lo + (d + 1) = (lo + d) + 1 := by omega
      rw [hstep, forUp_succ (by omega)]
      exact hf _ _ (by omega) (by omega)
        (ih (fun i a h1 h2 ha => hf i a h1 (by omega) ha))

/-- Anything preserved by every loop-body step is preserved by `forDown`. -/
theorem forDown_preserve {α : Type} (P : α → Prop) {hi : Nat} {f : Nat → α → α}
    (hf : ∀ i a, i < hi → P a → P (f i a)) {a : α} (ha : P a) :
    P (forDown hi f a) := by
  induction hi generalizing a with
  | zero => exact ha
  | succ d ih =>
    rw [forDown_succ]
    exact ih (fun i a h1 ha => hf i a (by omega) ha) (hf _ _ (by omega) ha)

namespace BPTreeNode

variable {K : Type}

/-- Result of `BSearch`: `struct SearchResult { uint16_t index; bool found; };` -/
structure SearchResult where
  index : Nat
  found : Bool
deriving DecidableEq

@[simp] theorem SearchResult.index_mk (a : Nat) (b : Bool) :
    (SearchResult.mk a b).index = a := rfl

@[simp] theorem SearchResult.found_mk (a : Nat) (b : Bool) :
    (SearchResult.mk a b).found = b := rfl

/-- The `while (lo < hi)` loop of `BPTreeNode::BSearch`.  `lo` and `hi` are
`uint16_t` in the source; since `hi` starts at `num_items_ < 128` and the
bounds only shrink, `lo + hi` never overflows and `Nat` models them exactly. -/
def bsearchLoop (cmp : K → K → Int) (key : K) (ks : Nat → K) (lo hi : Nat) : SearchResult :=
  if _h : lo < hi then
    let mid := (lo + hi) / 2
    let item := ks mid
    let cmp_res := cmp key item
    if cmp_res = 0 then ⟨mid, true⟩
    else if cmp_res < 0 then bsearchLoop cmp key ks lo mid
    else bsearchLoop cmp key ks (mid + 1) hi
  else ⟨hi, false⟩
termination_by hi - lo
decreasing_by
  · omega
  · omega

/-- `BPTreeNode::BSearch(key, cmp)`: binary search over slots `[0, num_items_)`. -/
def BSearch (n : BPTreeNode K) (key : K) (cmp : K → K → Int) : SearchResult :=
  bsearchLoop cmp key n.keys 0 n.num_items

/-- `BPTreeNode::ShiftRight(index)`: `memmove` keys `[index, num_items_)` one
slot up and, for inner nodes, children `[index, num_items_]` one slot up,
then increment the count.  The moves only happen when
`num_items_ - index > 0`. -/
def ShiftRight (n : BPTreeNode K) (index : Nat) : BPTreeNode K :=
  let num_items_to_shift := n.num_items - index
  let n' :=
    if 0 < num_items_to_shift then
      { n with
        keys := fun j =>
          if index < j ∧ j ≤ index + num_items_to_shift then n.keys (j - 1) else n.keys j,
        children :=
          if n.leaf then n.children
          else fun j =>
            if index < j ∧ j ≤ index + num_items_to_shift + 1 then n.children (j - 1)
            else n.children j }
    else n
  { n' with num_items := n'.num_items + 1 }

/-- `BPTreeNode::ShiftLeft(index, child_step_right)`: `memmove` keys
`(index, num_items_)` one slot down and, for inner nodes, the children above
`index + child_step_right` one slot down, then decrement the count.  All the
moves are guarded by `num_items_ - index - 1 > 0`, exactly as in the source. -/
def ShiftLeft (n : BPTreeNode K) (index : Nat) (child_step_right : Bool) : BPTreeNode K :=
  let num_items_to_shift := n.num_items - index - 1
  let n' :=
    if 0 < num_items_to_shift then
      let keys' := fun j =>
        if index ≤ j ∧ j < index + num_items_to_shift then n.keys (j + 1) else n.keys j
      let index2 := index + (if child_step_right then 1 else 0)
      let shift2 := n.num_items - index2
      let children' :=
        if n.leaf then n.children
        else if 0 < shift2 then
          fun j => if index2 ≤ j ∧ j < index2 + shift2 then n.children (j + 1) else n.children j
        else n.children
      { n with keys := keys', children := children' }
    else n
  { n' with num_items := n'.num_items - 1 }

/-- `BPTreeNode::InsertItem(index, item)`: shift right, then store the key. -/
def InsertItem (n : BPTreeNode K) (index : Nat) (item : K) : BPTreeNode K :=
  (n.ShiftRight index).setKey index item

/-- `BPTreeNode::Split(right, median)`: returns the updated left node, the
updated right node and the extracted median. -/
def Split (n right : BPTreeNode K) : BPTreeNode K × BPTreeNode K × K :=
  let mid := n.num_items / 2
  let median := n.keys mid
  let rcount := n.num_items - (mid + 1)
  let right' : BPTreeNode K :=
    { right with
      leaf := n.leaf
      num_items := rcount
      keys := fun j => if j < rcount then n.keys (mid + 1 + j) else right.keys j }
  let right' :=
    if n.leaf then right'
    else forUp 0 (rcount + 1) (fun i r => r.setChild i (n.children (mid + 1 + i))) right'
  ({ n with num_items := mid }, right', median)

/-- `BPTreeNode::MergeFromRight(key, right)`: append the separator and all
keys/children of `right` to this node; `right` becomes empty.  Returns the
updated `(this, right)` pair. -/
def MergeFromRight (n : BPTreeNode K) (key : K) (right : BPTreeNode K) :
    BPTreeNode K × BPTreeNode K :=
  let dest_items := n.num_items
  let n := n.setKey dest_items key
  let n := forUp 0 right.num_items (fun i d => d.setKey (dest_items + 1 + i) (right.keys i)) n
  let n :=
    if n.leaf then n
    else forUp 0 (right.num_items + 1)
      (fun i d => d.setChild (dest_items + 1 + i) (right.children i)) n
  let n := { n with num_items := n.num_items + 1 + right.num_items }
  (n, { right with num_items := 0 })

/-- `BPTreeNode::RebalanceChildToLeft(child_pos, count)`: move `count` items
from `src = Child(child_pos)` to `dest = Child(child_pos - 1)`.  The parent
(`this`) and the two children it dereferences are passed and returned
explicitly: the result is `(parent, src, dest)` after the call. -/
def RebalanceChildToLeft (parent src dest : BPTreeNode K) (child_pos count : Nat) :
    BPTreeNode K × BPTreeNode K × BPTreeNode K :=
  let dest_items := dest.num_items
  let dest := dest.setKey dest_items (parent.keys (child_pos - 1))
  let dest := forUp 1 count (fun i d => d.setKey (dest_items + i) (src.keys (i - 1))) dest
  let parent := parent.setKey (child_pos - 1) (src.keys (count - 1))
  let src := forUp count src.num_items (fun i s => s.setKey (i - count) (s.keys i)) src
  let dest :=
    if src.leaf then dest
    else forUp 0 count (fun i d => d.setChild (1 + d.num_items + i) (src.children i)) dest
  let src :=
    if src.leaf then src
    else forUp count (src.num_items + 1)
      (fun i s => (s.setChild (i - count) (s.children i)).setChild i 0) src
  let dest := { dest with num_items := dest.num_items + count }
  let src := { src with num_items := src.num_items - count }
  (parent, src, dest)

/-- `BPTreeNode::RebalanceChildToRight(child_pos, count)`: move `count` items
from `src = Child(child_pos)` to `dest = Child(child_pos + 1)`.  The parent
(`this`) and the two children are passed and returned explicitly: the result
is `(parent, src, dest)` after the call. -/
def RebalanceChildToRight (parent src dest : BPTreeNode K) (child_pos count : Nat) :
    BPTreeNode K × BPTreeNode K × BPTreeNode K :=
  let dest_items := dest.num_items
  let dest := forDown dest_items (fun i d => d.setKey (i + count) (d.keys i)) dest
  let new_delim := src.keys (src.num_items - count)
  let dest := forUp 1 count
    (fun i d => d.setKey (i - 1) (src.keys (src.num_items - count + i))) dest
  let dest := dest.setKey (count - 1) (parent.keys child_pos)
  let parent := parent.setKey child_pos new_delim
  let pr :=
    if src.leaf then (dest, src)
    else
      let dest := forDown (dest_items + 1) (fun i d => d.setChild (i + count) (d.children i)) dest
      forUp 0 count
        (fun i p =>
          let src_id := p.2.num_items - (count - 1) + i
          (p.1.setChild i (p.2.children src_id), p.2.setChild src_id 0))
        (dest, src)
  let dest := { pr.1 with num_items := pr.1.num_items + count }
  let src := { pr.2 with num_items := pr.2.num_items - count }
  (parent, src, dest)

/-- Which node a `BPTreeNode*` returned by `RebalanceChild` /
`MergeOrRebalanceChild` aliases: the left sibling, the child at `pos` itself,
or the right sibling. -/
inductive SiblingTag where
  | leftSib
  | child
  | rightSib
deriving DecidableEq

/-- Result of `RebalanceChild`: the returned `std::pair<BPTreeNode*, unsigned>`
(`res = none` models `{nullptr, 0}`) together with the updated parent, left
sibling, child and right sibling. -/
structure RCOut (K : Type) where
  res : Option (SiblingTag × Nat)
  parent : BPTreeNode K
  left : BPTreeNode K
  node : BPTreeNode K
  right : BPTreeNode K

/-- The `if (pos < NumItems())` second half of `BPTreeNode::RebalanceChild`:
try to move items into the right sibling. -/
def RebalanceChildRightPart (s : Nat) (parent left node right : BPTreeNode K)
    (pos insert_pos : Nat) : RCOut K :=
  if pos < parent.num_items then
    let dest_free := AvailableSlotCount s right
    if 0 < dest_free then
      let to_move :=
        if insert_pos = 0 then dest_free
        else if 1 < dest_free then dest_free / 2
        else 0
      if 0 < to_move then
        let r := RebalanceChildToRight parent node right pos to_move
        let parent' := r.1
        let node' := r.2.1
        let right' := r.2.2
        if node'.num_items < insert_pos then
          ⟨some (.rightSib, insert_pos - (node'.num_items + 1)), parent', left, node', right'⟩
        else ⟨some (.child, insert_pos), parent', left, node', right'⟩
      else ⟨none, parent, left, node, right⟩
    else ⟨none, parent, left, node, right⟩
  else ⟨none, parent, left, node, right⟩

/-- `BPTreeNode::RebalanceChild(pos, insert_pos)`: rebalance the full child at
position `pos` into a sibling with free slots, biased by `insert_pos`.  The
parent (`this`) and the child and its two potential siblings are passed
explicitly; `left` is only consulted when `pos > 0` and `right` only when
`pos < NumItems()`. -/
def RebalanceChild (s : Nat) (parent left node right : BPTreeNode K)
    (pos insert_pos : Nat) : RCOut K :=
  if 0 < pos then
    let dest_free := AvailableSlotCount s left
    if 0 < dest_free then
      let to_move :=
        if insert_pos = node.num_items then dest_free
        else if 1 < dest_free then dest_free / 2
        else 0
      if 0 < to_move then
        let dest_old_count := left.num_items
        let r := RebalanceChildToLeft parent node left pos to_move
        let parent' := r.1
        let node' := r.2.1
        let left' := r.2.2
        if insert_pos < to_move then
          ⟨some (.leftSib, dest_old_count + insert_pos + 1), parent', left', node', right⟩
        else ⟨some (.child, insert_pos - to_move), parent', left', node', right⟩
      else RebalanceChildRightPart s parent left node right pos insert_pos
    else RebalanceChildRightPart s parent left node right pos insert_pos
  else RebalanceChildRightPart s parent left node right pos insert_pos

/-- Result of `MergeOrRebalanceChild`: the retired node (`none` models the
`nullptr` return after a rebalance) together with the updated parent, left
sibling, child and right sibling. -/
structure MOROut (K : Type) where
  retired : Option SiblingTag
  parent : BPTreeNode K
  left : BPTreeNode K
  node : BPTreeNode K
  right : BPTreeNode K

/-- `BPTreeNode::MergeOrRebalanceChild(pos)`: merge the deficient child at
`pos` with a sibling when one can absorb it, otherwise rebalance.  The parent
(`this`) and the child and its two potential siblings are passed explicitly;
`left` is only consulted when `pos > 0` and `right` only when
`pos < NumItems()`. -/
def MergeOrRebalanceChild (s : Nat) (parent left node right : BPTreeNode K)
    (pos : Nat) : MOROut K :=
  if 0 < pos ∧ left.num_items + 1 + node.num_items ≤ MaxItems s left then
    let m := MergeFromRight left (parent.keys (pos - 1)) node
    let parent' := ShiftLeft parent (pos - 1) true
    ⟨some .child, parent', m.1, m.2, right⟩
  else if pos < parent.num_items then
    if node.num_items + 1 + right.num_items ≤ MaxItems s right then
      let m := MergeFromRight node (parent.keys pos) right
      let parent' := ShiftLeft parent pos true
      ⟨some .rightSib, parent', left, m.1, m.2⟩
    else
      let to_move := (right.num_items - node.num_items) / 2
      let r := RebalanceChildToLeft parent right node (pos + 1) to_move
      ⟨none, r.1, left, r.2.2, r.2.1⟩
  else if 0 < pos then
    let to_move := (left.num_items - node.num_items) / 2
    let r := RebalanceChildToRight parent left node (pos - 1) to_move
    ⟨none, r.1, r.2.1, r.2.2, right⟩
  else ⟨none, parent, left, node, right⟩

end BPTreeNode

/-! ### List and loop helper lemmas -/

/-- Insert a value at position `p` of a list: the logical effect of
`InsertItem` on the valid-key sequence. -/
def insertAt {K : Type} (l : List K) (p : Nat) (k : K) : List K :=
  l.take p ++ k :: l.drop p

theorem map_range_split {K : Type} (f : Nat → K) (a b : Nat) :
    (List.range (a + b)).map f
      = (List.range a).map f ++ (List.range b).map (fun x => f (a + x)) := by
  rw [List.range_add, List.map_append, List.map_map]
  rfl

theorem map_range_succ_left {K : Type} (f : Nat → K) (b : Nat) :
    (List.range (b + 1)).map f = f 0 :: (List.range b).map (fun x => f (x + 1)) := by
  rw [List.range_succ_eq_map, List.map_cons, List.map_map]
  rfl

theorem insertAt_of_length_eq {K : Type} {A : List K} (B : List K) (k : K) {p : Nat}
    (h : p = A.length) : insertAt (A ++ B) p k = A ++ k :: B := by
  subst h
  rw [insertAt, List.take_left, List.drop_left]

theorem insertAt_append_left {K : Type} {A : List K} (B : List K) (k : K) {p : Nat}
    (h : p ≤ A.length) : insertAt (A ++ B) p k = insertAt A p k ++ B := by
  rw [insertAt, insertAt, List.take_append_of_le_length h, List.drop_append_of_le_length h]
  simp

theorem insertAt_append_right {K : Type} {A : List K} (B : List K) (k : K) {p : Nat}
    (h : A.length ≤ p) : insertAt (A ++ B) p k = A ++ insertAt B (p - A.length) k := by
  have hp : p = A.length + (p - A.length) := by omega
  rw [insertAt, insertAt, hp, List.take_append, List.drop_append]
  simp

theorem insertAt_cons {K : Type} (b : K) (C : List K) (q : Nat) (k : K) :
    insertAt (b :: C) (q + 1) k = b :: insertAt C q k := by
  simp [insertAt]

theorem insertAt_middle_right {K : Type} (X : List K) (b : K) (C : List K) (q : Nat) (k : K) :
    X ++ b :: insertAt C q k = insertAt (X ++ b :: C) (X.length + 1 + q) k := by
  rw [insertAt_append_right _ _ (show X.length ≤ X.length + 1 + q from by omega)]
  rw [show X.length + 1 + q - X.length = q + 1 from by omega, insertAt_cons]

theorem eraseIdx_append_cons {K : Type} (A B : List K) (k : K) {p : Nat}
    (h : p = A.length) : (A ++ k :: B).eraseIdx p = A ++ B := by
  subst h
  rw [List.eraseIdx_eq_take_drop_succ]
  have h1 : List.take A.length (A ++ k :: B) = A := List.take_left A (k :: B)
  have h2 : List.drop (A.length + 1) (A ++ k :: B) = B := List.drop_append 1
  rw [h1, h2]

/-- Decompose the valid-slot sequence at position `p`. -/
theorem map_range_eq_append {K : Type} (f : Nat → K) (N p : Nat) (h : p ≤ N) :
    (List.range N).map f
      = (List.range p).map f ++ (List.range (N - p)).map (fun x => f (p + x)) := by
  conv_lhs => rw [show N = p + (N - p) from by omega]
  exact map_range_split f p (N - p)

/-- Decompose the valid-slot sequence at position `p < N`, exposing slot `p`. -/
theorem map_range_eq_append_cons {K : Type} (f : Nat → K) (N p : Nat) (h : p < N) :
    (List.range N).map f
      = (List.range p).map f
        ++ f p :: (List.range (N - p - 1)).map (fun x => f (p + 1 + x)) := by
  rw [map_range_eq_append f N p (Nat.le_of_lt h)]
  congr 1
  conv_lhs => rw [show N - p = (N - p - 1) + 1 from by omega]
  rw [map_range_succ_left]
  congr 1
  refine List.map_congr_left fun a _ => ?_
  have hx : p + (a + 1) = p + 1 + a := by omega
  rw [hx]

theorem insertAt_map_range {K : Type} (f : Nat → K) (N p : Nat) (k : K) (h : p ≤ N) :
    insertAt ((List.range N).map f) p k
      = (List.range p).map f ++ k :: (List.range (N - p)).map (fun x => f (p + x)) := by
  rw [map_range_eq_append f N p h]
  exact insertAt_of_length_eq _ _ (by simp)

theorem eraseIdx_map_range {K : Type} (f : Nat → K) (N p : Nat) (h : p < N) :
    ((List.range N).map f).eraseIdx p
      = (List.range p).map f ++ (List.range (N - p - 1)).map (fun x => f (p + 1 + x)) := by
  rw [map_range_eq_append_cons f N p h]
  exact eraseIdx_append_cons _ _ _ (by simp)

theorem forUp_split {α : Type} (lo mid hi : Nat) (h1 : lo ≤ mid) (h2 : mid ≤ hi)
    (f : Nat → α → α) (a : α) :
    forUp lo hi f a = forUp mid hi f (forUp lo mid f a) := by
  obtain ⟨d, rfl⟩ := Nat.exists_eq_add_of_le h2
  induction d with
  | zero => rw [Nat.add_zero, forUp_of_le (Nat.le_refl _)]
  | succ d ih =>
    have hstep : mid + (d + 1) = (mid + d) + 1 := by omega
    rw [hstep, forUp_succ (by omega), forUp_succ (by omega), ih (by omega)]

namespace BPTreeNode

variable {K : Type}

/-- A loop whose body only touches child slots leaves keys, count and the
leaf flag unchanged. -/
theorem forUp_keys_frame {lo hi : Nat} {f : Nat → BPTreeNode K → BPTreeNode K}
    (hf : ∀ i a, lo ≤ i → i < hi →
      (f i a).keys = a.keys ∧ (f i a).num_items = a.num_items ∧ (f i a).leaf = a.leaf)
    (a : BPTreeNode K) :
    (forUp lo hi f a).keys = a.keys ∧ (forUp lo hi f a).num_items = a.num_items ∧
      (forUp lo hi f a).leaf = a.leaf :=
  forUp_preserve (fun (x : BPTreeNode K) => x.keys = a.keys ∧ x.num_items = a.num_items ∧ x.leaf = a.leaf)
    (fun i x h1 h2 hx => by
      obtain ⟨ha, hb, hc⟩ := hf i x h1 h2
      exact ⟨ha.trans hx.1, hb.trans hx.2.1, hc.trans hx.2.2⟩)
    ⟨rfl, rfl, rfl⟩

/-- A loop whose body only touches key slots leaves children, count and the
leaf flag unchanged. -/
theorem forUp_children_frame {lo hi : Nat} {f : Nat → BPTreeNode K → BPTreeNode K}
    (hf : ∀ i a, lo ≤ i → i < hi →
      (f i a).children = a.children ∧ (f i a).num_items = a.num_items ∧ (f i a).leaf = a.leaf)
    (a : BPTreeNode K) :
    (forUp lo hi f a).children = a.children ∧ (forUp lo hi f a).num_items = a.num_items ∧
      (forUp lo hi f a).leaf = a.leaf :=
  forUp_preserve (fun (x : BPTreeNode K) => x.children = a.children ∧ x.num_items = a.num_items ∧ x.leaf = a.leaf)
    (fun i x h1 h2 hx => by
      obtain ⟨ha, hb, hc⟩ := hf i x h1 h2
      exact ⟨ha.trans hx.1, hb.trans hx.2.1, hc.trans hx.2.2⟩)
    ⟨rfl, rfl, rfl⟩

/-- Same frame fact for the `forDown` child-shifting loops. -/
theorem forDown_keys_frame {hi : Nat} {f : Nat → BPTreeNode K → BPTreeNode K}
    (hf : ∀ i a, i < hi →
      (f i a).keys = a.keys ∧ (f i a).num_items = a.num_items ∧ (f i a).leaf = a.leaf)
    (a : BPTreeNode K) :
    (forDown hi f a).keys = a.keys ∧ (forDown hi f a).num_items = a.num_items ∧
      (forDown hi f a).leaf = a.leaf :=
  forDown_preserve (fun (x : BPTreeNode K) => x.keys = a.keys ∧ x.num_items = a.num_items ∧ x.leaf = a.leaf)
    (fun i x h1 hx => by
      obtain ⟨ha, hb, hc⟩ := hf i x h1
      exact ⟨ha.trans hx.1, hb.trans hx.2.1, hc.trans hx.2.2⟩)
    ⟨rfl, rfl, rfl⟩

/-- Same frame fact for the `forDown` key-shifting loops. -/
theorem forDown_children_frame {hi : Nat} {f : Nat → BPTreeNode K → BPTreeNode K}
    (hf : ∀ i a, i < hi →
      (f i a).children = a.children ∧ (f i a).num_items = a.num_items ∧ (f i a).leaf = a.leaf)
    (a : BPTreeNode K) :
    (forDown hi f a).children = a.children ∧ (forDown hi f a).num_items = a.num_items ∧
      (forDown hi f a).leaf = a.leaf :=
  forDown_preserve
    (fun (x : BPTreeNode K) => x.children = a.children ∧ x.num_items = a.num_items ∧
      x.leaf = a.leaf)
    (fun i x h1 hx => by
      obtain ⟨ha, hb, hc⟩ := hf i x h1
      exact ⟨ha.trans hx.1, hb.trans hx.2.1, hc.trans hx.2.2⟩)
    ⟨rfl, rfl, rfl⟩

/-- Frame fact for the child-moving pair loop of `RebalanceChildToRight`:
keys, counts and leaf flags of both components are untouched. -/
theorem forUp_pair_frame {lo hi : Nat}
    {f : Nat → BPTreeNode K × BPTreeNode K → BPTreeNode K × BPTreeNode K}
    (hf : ∀ i p, lo ≤ i → i < hi →
      (f i p).1.keys = p.1.keys ∧ (f i p).1.num_items = p.1.num_items ∧
        (f i p).1.leaf = p.1.leaf ∧ (f i p).2.keys = p.2.keys ∧
        (f i p).2.num_items = p.2.num_items ∧ (f i p).2.leaf = p.2.leaf)
    (a : BPTreeNode K × BPTreeNode K) :
    (forUp lo hi f a).1.keys = a.1.keys ∧ (forUp lo hi f a).1.num_items = a.1.num_items ∧
      (forUp lo hi f a).1.leaf = a.1.leaf ∧ (forUp lo hi f a).2.keys = a.2.keys ∧
      (forUp lo hi f a).2.num_items = a.2.num_items ∧ (forUp lo hi f a).2.leaf = a.2.leaf :=
  forUp_preserve
    (fun (x : BPTreeNode K × BPTreeNode K) => x.1.keys = a.1.keys ∧ x.1.num_items = a.1.num_items ∧ x.1.leaf = a.1.leaf ∧
      x.2.keys = a.2.keys ∧ x.2.num_items = a.2.num_items ∧ x.2.leaf = a.2.leaf)
    (fun i x h1 h2 hx => by
      obtain ⟨h3, h4, h5, h6, h7, h8⟩ := hf i x h1 h2
      exact ⟨h3.trans hx.1, h4.trans hx.2.1, h5.trans hx.2.2.1, h6.trans hx.2.2.2.1,
        h7.trans hx.2.2.2.2.1, h8.trans hx.2.2.2.2.2⟩)
    ⟨rfl, rfl, rfl, rfl, rfl, rfl⟩

/-- A key-writing loop does not change a slot none of its writes target. -/
theorem forUp_setKey_keys_of_notin {lo hi : Nat} (g : Nat → Nat) (v : Nat → K)
    (d : BPTreeNode K) {j : Nat} (h : ∀ i, lo ≤ i → i < hi → g i ≠ j) :
    (forUp lo hi (fun i d => d.setKey (g i) (v i)) d).keys j = d.keys j :=
  forUp_preserve (fun (x : BPTreeNode K) => x.keys j = d.keys j)
    (fun i x h1 h2 hx => by
      show (x.setKey (g i) (v i)).keys j = d.keys j
      rw [setKey_keys_other _ _ _ (fun he => (h i h1 h2) he.symm)]
      exact hx)
    rfl

/-- A key-writing loop stores the value of its last write into a slot. -/
theorem forUp_setKey_keys_of_hit {lo hi : Nat} (g : Nat → Nat) (v : Nat → K)
    (d : BPTreeNode K) {j i0 : Nat} (h1 : lo ≤ i0) (h2 : i0 < hi) (h3 : g i0 = j)
    (h4 : ∀ i, i0 < i → i < hi → g i ≠ j) :
    (forUp lo hi (fun i d => d.setKey (g i) (v i)) d).keys j = v i0 := by
  rw [forUp_split lo (i0 + 1) hi (by omega) (by omega)]
  rw [forUp_setKey_keys_of_notin g v _ (fun i hA hB => h4 i (by omega) hB)]
  rw [forUp_succ (by omega)]
  subst h3
  exact setKey_keys_same _ _ _

/-- A child-writing loop does not change a slot none of its writes target. -/
theorem forUp_setChild_children_of_notin {lo hi : Nat} (g : Nat → Nat) (v : Nat → Nat)
    (d : BPTreeNode K) {j : Nat} (h : ∀ i, lo ≤ i → i < hi → g i ≠ j) :
    (forUp lo hi (fun i d => d.setChild (g i) (v i)) d).children j = d.children j :=
  forUp_preserve (fun (x : BPTreeNode K) => x.children j = d.children j)
    (fun i x h1 h2 hx => by
      show (x.setChild (g i) (v i)).children j = d.children j
      rw [setChild_children_other _ _ _ (fun he => (h i h1 h2) he.symm)]
      exact hx)
    rfl

/-- A child-writing loop stores the value of its last write into a slot. -/
theorem forUp_setChild_children_of_hit {lo hi : Nat} (g : Nat → Nat) (v : Nat → Nat)
    (d : BPTreeNode K) {j i0 : Nat} (h1 : lo ≤ i0) (h2 : i0 < hi) (h3 : g i0 = j)
    (h4 : ∀ i, i0 < i → i < hi → g i ≠ j) :
    (forUp lo hi (fun i d => d.setChild (g i) (v i)) d).children j = v i0 := by
  rw [forUp_split lo (i0 + 1) hi (by omega) (by omega)]
  rw [forUp_setChild_children_of_notin g v _ (fun i hA hB => h4 i (by omega) hB)]
  rw [forUp_succ (by omega)]
  subst h3
  exact setChild_children_same _ _ _

/-- The key-compacting loop
`for (i = count; i < num_items; ++i) SetKey(i - count, Key(i))` of
`RebalanceChildToLeft`: afterwards slot `j` holds the old slot `j + count`
for `j` below the number of moved-down items, and is untouched above. -/
theorem forUp_shift_self_keys (s : BPTreeNode K) (cnt d : Nat) (hcnt : 1 ≤ cnt) (j : Nat) :
    (forUp cnt (cnt + d) (fun i t => t.setKey (i - cnt) (t.keys i)) s).keys j
      = if j < d then s.keys (j + cnt) else s.keys j := by
  induction d generalizing j with
  | zero =>
    rw [Nat.add_zero, forUp_of_le (Nat.le_refl _)]
    simp
  | succ d ih =>
    rw [show cnt + (d + 1) = (cnt + d) + 1 from by omega, forUp_succ (by omega)]
    have hidx : cnt + d - cnt = d := by omega
    rw [hidx]
    by_cases hj : j = d
    · subst hj
      rw [setKey_keys_same]
      rw [ih (cnt + j)]
      have hno : ¬(cnt + j < j) := by omega
      rw [if_neg hno, if_pos (by omega), Nat.add_comm]
    · rw [setKey_keys_other _ _ _ hj, ih j]
      by_cases hlt : j < d
      · rw [if_pos hlt, if_pos (by omega)]
      · rw [if_neg hlt, if_neg (by omega)]

/-- Version of `forUp_shift_self_keys` phrased for an arbitrary upper bound. -/
theorem forUp_shift_self_keys' (s : BPTreeNode K) (cnt m : Nat) (hcnt : 1 ≤ cnt)
    (hm : cnt ≤ m) (j : Nat) :
    (forUp cnt m (fun i t => t.setKey (i - cnt) (t.keys i)) s).keys j
      = if j < m - cnt then s.keys (j + cnt) else s.keys j := by
  obtain ⟨d, rfl⟩ := Nat.exists_eq_add_of_le hm
  have h := forUp_shift_self_keys s cnt d hcnt j
  rwa [show cnt + d - cnt = d from by omega]

/-- The key-spreading loop
`for (i = dest_items - 1; i >= 0; --i) SetKey(i + count, Key(i))` of
`RebalanceChildToRight`: afterwards slot `j` holds the old slot `j - count`
for `count ≤ j < D + count`, and the slots below `count` are untouched. -/
theorem forDown_shift_self_keys (cnt D : Nat) (d0 : BPTreeNode K) (j : Nat) :
    (forDown D (fun i t => t.setKey (i + cnt) (t.keys i)) d0).keys j
      = if cnt ≤ j ∧ j < D + cnt then d0.keys (j - cnt) else d0.keys j := by
  induction D generalizing d0 with
  | zero =>
    rw [forDown_zero]
    have hno : ¬(cnt ≤ j ∧ j < 0 + cnt) := by omega
    rw [if_neg hno]
  | succ D ih =>
    rw [forDown_succ, ih]
    by_cases hc : cnt ≤ j ∧ j < D + cnt
    · rw [if_pos hc, if_pos (by omega)]
      exact setKey_keys_other _ _ _ (by omega)
    · rw [if_neg hc]
      by_cases hj : j = D + cnt
      · subst hj
        rw [if_pos (by omega), setKey_keys_same]
        congr 1
        omega
      · rw [if_neg (by omega)]
        exact setKey_keys_other _ _ _ (by omega)

/-! ### Characterizations of the shift primitives -/

@[simp] theorem ShiftRight_num_items (n : BPTreeNode K) (index : Nat) :
    (n.ShiftRight index).num_items = n.num_items + 1 := by
  simp only [ShiftRight]
  split <;> rfl

@[simp] theorem ShiftRight_leaf (n : BPTreeNode K) (index : Nat) :
    (n.ShiftRight index).leaf = n.leaf := by
  simp only [ShiftRight]
  split <;> rfl

theorem ShiftRight_keys (n : BPTreeNode K) (index j : Nat) :
    (n.ShiftRight index).keys j
      = if index < j ∧ j ≤ n.num_items then n.keys (j - 1) else n.keys j := by
  simp only [ShiftRight]
  by_cases h : 0 < n.num_items - index
  · rw [if_pos h]
    show (if index < j ∧ j ≤ index + (n.num_items - index) then n.keys (j - 1) else n.keys j) = _
    have he : index + (n.num_items - index) = n.num_items := by omega
    rw [he]
  · rw [if_neg h]
    show n.keys j = _
    have hc : ¬(index < j ∧ j ≤ n.num_items) := by omega
    rw [if_neg hc]

@[simp] theorem ShiftLeft_num_items (n : BPTreeNode K) (index : Nat) (b : Bool) :
    (n.ShiftLeft index b).num_items = n.num_items - 1 := by
  simp only [ShiftLeft]
  split <;> rfl

@[simp] theorem ShiftLeft_leaf (n : BPTreeNode K) (index : Nat) (b : Bool) :
    (n.ShiftLeft index b).leaf = n.leaf := by
  simp only [ShiftLeft]
  split <;> rfl

theorem ShiftLeft_keys (n : BPTreeNode K) (index : Nat) (b : Bool) (j : Nat) :
    (n.ShiftLeft index b).keys j
      = if index ≤ j ∧ j < n.num_items - 1 then n.keys (j + 1) else n.keys j := by
  simp only [ShiftLeft]
  by_cases h : 0 < n.num_items - index - 1
  · rw [if_pos h]
    show (if index ≤ j ∧ j < index + (n.num_items - index - 1) then n.keys (j + 1)
        else n.keys j) = _
    have he : index + (n.num_items - index - 1) = n.num_items - 1 := by omega
    rw [he]
  · rw [if_neg h]
    show n.keys j = _
    have hc : ¬(index ≤ j ∧ j < n.num_items - 1) := by omega
    rw [if_neg hc]

theorem ShiftLeft_children (n : BPTreeNode K) (index : Nat) (b : Bool) (j : Nat) :
    (n.ShiftLeft index b).children j
      = if n.leaf = false ∧ index + 1 < n.num_items ∧
            index + (if b then 1 else 0) ≤ j ∧ j < n.num_items
        then n.children (j + 1) else n.children j := by
  simp only [ShiftLeft]
  have hc1 : (if b then 1 else 0) ≤ 1 := by
    rcases b with _ | _ <;> simp
  by_cases h : 0 < n.num_items - index - 1
  · simp only [if_pos h]
    by_cases hleaf : n.leaf
    · have hno : ¬(n.leaf = false ∧ index + 1 < n.num_items ∧
          index + (if b then 1 else 0) ≤ j ∧ j < n.num_items) := by
        rintro ⟨h1, -⟩
        rw [hleaf] at h1
        simp at h1
      rw [if_neg hno]
      simp [hleaf]
    · have hleaf' : n.leaf = false := by
        simpa using hleaf
      generalize hg : (if b = true then 1 else 0) = c at hc1 ⊢
      have h2 : 0 < n.num_items - (index + c) := by omega
      have he : (index + c) + (n.num_items - (index + c)) = n.num_items := by omega
      simp only [hleaf', Bool.false_eq_true, if_false, if_pos h2, he, eq_self_iff_true,
        true_and]
      split_ifs with hA hB hB
      · rfl
      · exact absurd ⟨by omega, hA⟩ hB
      · exact absurd hB.2 hA
      · rfl
  · simp only [if_neg h]
    have hno : ¬(n.leaf = false ∧ index + 1 < n.num_items ∧
        index + (if b then 1 else 0) ≤ j ∧ j < n.num_items) := by
      rintro ⟨-, h1, -⟩
      omega
    rw [if_neg hno]

/-- `ShiftLeft(i, _)` removes exactly the key at slot `i` from the
valid-key sequence. -/
theorem ShiftLeft_keyList (n : BPTreeNode K) (index : Nat) (b : Bool)
    (h : index < n.num_items) :
    (n.ShiftLeft index b).keyList = n.keyList.eraseIdx index := by
  rw [keyList, keyList, ShiftLeft_num_items, eraseIdx_map_range _ _ _ h,
    map_range_eq_append (n.ShiftLeft index b).keys (n.num_items - 1) index (by omega)]
  congr 1
  · refine List.map_congr_left fun a ha => ?_
    rw [List.mem_range] at ha
    rw [ShiftLeft_keys, if_neg (by omega)]
  · rw [show n.num_items - 1 - index = n.num_items - index - 1 from by omega]
    refine List.map_congr_left fun a ha => ?_
    rw [List.mem_range] at ha
    rw [ShiftLeft_keys, if_pos (by omega)]
    congr 1
    omega

/-- `ShiftLeft(i, child_step_right)` on an inner node removes exactly one
child pointer: the one at `i + child_step_right` when `i` is not the last
key slot, and the trailing child (slot `num_items`) when it is, since in
that case the guarded move loop does not run. -/
theorem ShiftLeft_childList (n : BPTreeNode K) (index : Nat) (b : Bool)
    (h : index < n.num_items) (hleaf : n.leaf = false) :
    (n.ShiftLeft index b).childList
      = n.childList.eraseIdx
          (if index + 1 < n.num_items then (if b then index + 1 else index)
           else n.num_items) := by
  have hidx2 : (if b then index + 1 else index) = index + (if b then 1 else 0) := by
    rcases b with _ | _ <;> simp
  have hble : (if b then 1 else 0) ≤ 1 := by
    rcases b with _ | _ <;> simp
  by_cases hlast : index + 1 < n.num_items
  · rw [if_pos hlast, hidx2]
    rw [childList, childList, ShiftLeft_num_items,
      eraseIdx_map_range _ _ _ (by omega),
      show n.num_items - 1 + 1 = n.num_items from by omega,
      map_range_eq_append (n.ShiftLeft index b).children n.num_items
        (index + (if b then 1 else 0)) (by omega)]
    congr 1
    · refine List.map_congr_left fun a ha => ?_
      rw [List.mem_range] at ha
      rw [ShiftLeft_children, if_neg (by omega)]
    · have hlen : n.num_items + 1 - (index + (if b then 1 else 0)) - 1
          = n.num_items - (index + (if b then 1 else 0)) := by omega
      rw [hlen]
      refine List.map_congr_left fun a ha => ?_
      rw [List.mem_range] at ha
      rw [ShiftLeft_children, if_pos ⟨hleaf, hlast, by omega, by omega⟩]
      congr 1
      omega
  · rw [if_neg hlast]
    rw [childList, childList, ShiftLeft_num_items,
      eraseIdx_map_range _ _ _ (by omega),
      show n.num_items + 1 - n.num_items - 1 = 0 from by omega]
    simp only [List.range_zero, List.map_nil, List.append_nil]
    rw [show n.num_items - 1 + 1 = n.num_items from by omega]
    refine List.map_congr_left fun a ha => ?_
    rw [List.mem_range] at ha
    rw [ShiftLeft_children, if_neg (by omega)]

@[simp] theorem InsertItem_num_items (n : BPTreeNode K) (index : Nat) (k : K) :
    (n.InsertItem index k).num_items = n.num_items + 1 := by
  rw [InsertItem, setKey_num_items, ShiftRight_num_items]

@[simp] theorem InsertItem_leaf (n : BPTreeNode K) (index : Nat) (k : K) :
    (n.InsertItem index k).leaf = n.leaf := by
  rw [InsertItem, setKey_leaf, ShiftRight_leaf]

/-- `InsertItem(i, k)` inserts `k` at position `i` of the valid-key
sequence. -/
theorem InsertItem_keyList (n : BPTreeNode K) (index : Nat) (k : K)
    (h : index ≤ n.num_items) :
    (n.InsertItem index k).keyList = insertAt n.keyList index k := by
  rw [keyList, keyList, InsertItem_num_items, insertAt_map_range _ _ _ _ h,
    map_range_eq_append_cons (n.InsertItem index k).keys (n.num_items + 1) index (by omega)]
  congr 1
  · refine List.map_congr_left fun a ha => ?_
    rw [List.mem_range] at ha
    rw [InsertItem, setKey_keys_other _ _ _ (by omega), ShiftRight_keys, if_neg (by omega)]
  · congr 1
    · rw [InsertItem, setKey_keys_same]
    · rw [show n.num_items + 1 - index - 1 = n.num_items - index from by omega]
      refine List.map_congr_left fun a ha => ?_
      rw [List.mem_range] at ha
      rw [InsertItem, setKey_keys_other _ _ _ (by omega), ShiftRight_keys,
        if_pos ⟨by omega, by omega⟩]
      congr 1
      omega

/-- Field-level description of `Split`: the median is slot `count / 2`, the
left node keeps its keys with count `count / 2`, the right node receives
keys `[mid+1, count)` and (for inner nodes) children `[mid+1, count]`. -/
theorem Split_spec (n right : BPTreeNode K) :
    (n.Split right).2.2 = n.keys (n.num_items / 2) ∧
    (n.Split right).1.num_items = n.num_items / 2 ∧
    (n.Split right).1.keys = n.keys ∧
    (n.Split right).1.leaf = n.leaf ∧
    (n.Split right).2.1.num_items = n.num_items - (n.num_items / 2 + 1) ∧
    (n.Split right).2.1.leaf = n.leaf ∧
    (∀ j, j < n.num_items - (n.num_items / 2 + 1) →
      (n.Split right).2.1.keys j = n.keys (n.num_items / 2 + 1 + j)) ∧
    (n.leaf = false → ∀ j, j ≤ n.num_items - (n.num_items / 2 + 1) →
      (n.Split right).2.1.children j = n.children (n.num_items / 2 + 1 + j)) := by
  have hframe : ∀ m : BPTreeNode K,
      (forUp 0 (n.num_items - (n.num_items / 2 + 1) + 1)
        (fun i r => r.setChild i (n.children (n.num_items / 2 + 1 + i))) m).keys = m.keys ∧
      (forUp 0 (n.num_items - (n.num_items / 2 + 1) + 1)
        (fun i r => r.setChild i (n.children (n.num_items / 2 + 1 + i))) m).num_items
          = m.num_items ∧
      (forUp 0 (n.num_items - (n.num_items / 2 + 1) + 1)
        (fun i r => r.setChild i (n.children (n.num_items / 2 + 1 + i))) m).leaf
          = m.leaf :=
    fun m => @forUp_keys_frame K 0 (n.num_items - (n.num_items / 2 + 1) + 1)
      (fun i r => r.setChild i (n.children (n.num_items / 2 + 1 + i)))
      (fun i a _ _ => ⟨rfl, rfl, rfl⟩) m
  refine ⟨?_, ?_, ?_, ?_, ?_, ?_, fun j hj => ?_, fun hleaf0 j hj => ?_⟩
  · simp only [Split]
  · simp only [Split]
  · simp only [Split]
  · simp only [Split]
  · simp only [Split]
    by_cases hleaf : n.leaf
    · rw [if_pos hleaf]
    · rw [if_neg hleaf, (hframe _).2.1]
  · simp only [Split]
    by_cases hleaf : n.leaf
    · rw [if_pos hleaf]
    · rw [if_neg hleaf, (hframe _).2.2]
  · simp only [Split]
    by_cases hleaf : n.leaf
    · rw [if_pos hleaf]
      show (if j < n.num_items - (n.num_items / 2 + 1) then _ else _) = _
      rw [if_pos hj]
    · rw [if_neg hleaf, congrFun (hframe _).1 j]
      show (if j < n.num_items - (n.num_items / 2 + 1) then _ else _) = _
      rw [if_pos hj]
  · simp only [Split]
    rw [if_neg (show ¬n.leaf = true from by rw [hleaf0]; exact Bool.false_ne_true)]
    refine forUp_setChild_children_of_hit (fun i => i)
      (fun i => n.children (n.num_items / 2 + 1 + i)) _ (by omega) (by omega) rfl
      (fun i h1 h2 => by show i ≠ j; omega)

/-- Field-level description of `MergeFromRight`: the destination receives the
separator and all keys (and, for inner nodes, children) of `right`, and
`right` becomes empty. -/
theorem MergeFromRight_spec (n : BPTreeNode K) (key : K) (right : BPTreeNode K) :
    (n.MergeFromRight key right).1.num_items = n.num_items + 1 + right.num_items ∧
    (n.MergeFromRight key right).1.leaf = n.leaf ∧
    (n.MergeFromRight key right).2.num_items = 0 ∧
    (n.MergeFromRight key right).2.leaf = right.leaf ∧
    (n.MergeFromRight key right).1.keyList = n.keyList ++ key :: right.keyList ∧
    (n.leaf = false →
      (n.MergeFromRight key right).1.childList = n.childList ++ right.childList) := by
  have hkfold_lo : ∀ (m : BPTreeNode K) (j : Nat), j ≤ n.num_items →
      (forUp 0 right.num_items
        (fun i d => d.setKey (n.num_items + 1 + i) (right.keys i)) m).keys j = m.keys j :=
    fun m j hj =>
      forUp_setKey_keys_of_notin (fun i => n.num_items + 1 + i) (fun i => right.keys i) m
        (fun i _ _ => by show n.num_items + 1 + i ≠ j; omega)
  have hkfold_hit : ∀ (m : BPTreeNode K) (x : Nat), x < right.num_items →
      (forUp 0 right.num_items
        (fun i d => d.setKey (n.num_items + 1 + i) (right.keys i)) m).keys
          (n.num_items + 1 + x) = right.keys x :=
    fun m x hx =>
      forUp_setKey_keys_of_hit (fun i => n.num_items + 1 + i) (fun i => right.keys i) m
        (by omega) hx rfl (fun i h1 h2 => by show n.num_items + 1 + i ≠ n.num_items + 1 + x; omega)
  have hkfold_frame : ∀ m : BPTreeNode K,
      (forUp 0 right.num_items
        (fun i d => d.setKey (n.num_items + 1 + i) (right.keys i)) m).children = m.children ∧
      (forUp 0 right.num_items
        (fun i d => d.setKey (n.num_items + 1 + i) (right.keys i)) m).num_items
          = m.num_items ∧
      (forUp 0 right.num_items
        (fun i d => d.setKey (n.num_items + 1 + i) (right.keys i)) m).leaf = m.leaf :=
    fun m => @forUp_children_frame K 0 right.num_items
      (fun i d => d.setKey (n.num_items + 1 + i) (right.keys i))
      (fun i a _ _ => ⟨rfl, rfl, rfl⟩) m
  have hcfold_frame : ∀ m : BPTreeNode K,
      (forUp 0 (right.num_items + 1)
        (fun i d => d.setChild (n.num_items + 1 + i) (right.children i)) m).keys = m.keys ∧
      (forUp 0 (right.num_items + 1)
        (fun i d => d.setChild (n.num_items + 1 + i) (right.children i)) m).num_items
          = m.num_items ∧
      (forUp 0 (right.num_items + 1)
        (fun i d => d.setChild (n.num_items + 1 + i) (right.children i)) m).leaf = m.leaf :=
    fun m => @forUp_keys_frame K 0 (right.num_items + 1)
      (fun i d => d.setChild (n.num_items + 1 + i) (right.children i))
      (fun i a _ _ => ⟨rfl, rfl, rfl⟩) m
  have hcfold_lo : ∀ (m : BPTreeNode K) (j : Nat), j ≤ n.num_items →
      (forUp 0 (right.num_items + 1)
        (fun i d => d.setChild (n.num_items + 1 + i) (right.children i)) m).children j
        = m.children j :=
    fun m j hj =>
      forUp_setChild_children_of_notin (fun i => n.num_items + 1 + i)
        (fun i => right.children i) m (fun i _ _ => by show n.num_items + 1 + i ≠ j; omega)
  have hcfold_hit : ∀ (m : BPTreeNode K) (x : Nat), x < right.num_items + 1 →
      (forUp 0 (right.num_items + 1)
        (fun i d => d.setChild (n.num_items + 1 + i) (right.children i)) m).children
          (n.num_items + 1 + x) = right.children x :=
    fun m x hx =>
      forUp_setChild_children_of_hit (fun i => n.num_items + 1 + i)
        (fun i => right.children i) m (by omega) hx rfl
        (fun i h1 h2 => by show n.num_items + 1 + i ≠ n.num_items + 1 + x; omega)
  refine ⟨?_, ?_, ?_, ?_, ?_, fun hleaf0 => ?_⟩
  · simp only [MergeFromRight, withNum_num_items]
    split
    · rw [(hkfold_frame _).2.1, setKey_num_items]
    · rw [(hcfold_frame _).2.1, (hkfold_frame _).2.1, setKey_num_items]
  · simp only [MergeFromRight, withNum_leaf]
    split
    · rw [(hkfold_frame _).2.2, setKey_leaf]
    · rw [(hcfold_frame _).2.2, (hkfold_frame _).2.2, setKey_leaf]
  · simp only [MergeFromRight, withNum_num_items]
  · simp only [MergeFromRight, withNum_leaf]
  · simp only [MergeFromRight, keyList, withNum_num_items, withNum_keys]
    split
    · rw [(hkfold_frame _).2.1, setKey_num_items]
      rw [map_range_eq_append_cons _ (n.num_items + 1 + right.num_items) n.num_items (by omega)]
      rw [show n.num_items + 1 + right.num_items - n.num_items - 1 = right.num_items
        from by omega]
      congr 1
      · refine List.map_congr_left fun a ha => ?_
        rw [List.mem_range] at ha
        rw [hkfold_lo _ a (by omega), setKey_keys_other _ _ _ (by omega)]
      · congr 1
        · rw [hkfold_lo _ n.num_items (by omega), setKey_keys_same]
        · refine List.map_congr_left fun a ha => ?_
          rw [List.mem_range] at ha
          exact hkfold_hit _ a ha
    · rw [(hcfold_frame _).2.1, (hkfold_frame _).2.1, setKey_num_items]
      rw [map_range_eq_append_cons _ (n.num_items + 1 + right.num_items) n.num_items (by omega)]
      rw [show n.num_items + 1 + right.num_items - n.num_items - 1 = right.num_items
        from by omega]
      congr 1
      · refine List.map_congr_left fun a ha => ?_
        rw [List.mem_range] at ha
        rw [congrFun (hcfold_frame _).1 a, hkfold_lo _ a (by omega),
          setKey_keys_other _ _ _ (by omega)]
      · congr 1
        · rw [congrFun (hcfold_frame _).1 n.num_items, hkfold_lo _ n.num_items (by omega),
            setKey_keys_same]
        · refine List.map_congr_left fun a ha => ?_
          rw [List.mem_range] at ha
          rw [congrFun (hcfold_frame _).1 (n.num_items + 1 + a)]
          exact hkfold_hit _ a ha
  · simp only [MergeFromRight, childList, withNum_num_items, withNum_children]
    have hcond : ¬((forUp 0 right.num_items
        (fun i d => d.setKey (n.num_items + 1 + i) (right.keys i))
          (n.setKey n.num_items key)).leaf = true) := by
      rw [(hkfold_frame _).2.2, setKey_leaf, hleaf0]
      exact Bool.false_ne_true
    rw [if_neg hcond]
    rw [(hcfold_frame _).2.1, (hkfold_frame _).2.1, setKey_num_items]
    rw [show n.num_items + 1 + right.num_items + 1
        = (n.num_items + 1) + (right.num_items + 1) from by omega]
    rw [map_range_split]
    congr 1
    · refine List.map_congr_left fun a ha => ?_
      rw [List.mem_range] at ha
      rw [hcfold_lo _ a (by omega), congrFun (hkfold_frame _).1 a, setKey_children]
    · refine List.map_congr_left fun a ha => ?_
      rw [List.mem_range] at ha
      rw [hcfold_hit _ a ha]

/-- Field-level description of `RebalanceChildToLeft`: the parent separator
moves to the end of the left sibling, the `count - 1` leading keys of the
source follow it, the source's key `count - 1` becomes the new separator,
the remaining source keys compact down, and the counts move by exactly
`count`. -/
theorem RebalanceChildToLeft_spec (parent src dest : BPTreeNode K) (cp cnt : Nat)
    (h1 : 1 ≤ cnt) (h2 : cnt ≤ src.num_items) :
    (RebalanceChildToLeft parent src dest cp cnt).1.num_items = parent.num_items ∧
    (RebalanceChildToLeft parent src dest cp cnt).1.leaf = parent.leaf ∧
    (RebalanceChildToLeft parent src dest cp cnt).1.children = parent.children ∧
    (RebalanceChildToLeft parent src dest cp cnt).1.keys (cp - 1) = src.keys (cnt - 1) ∧
    (∀ j, j ≠ cp - 1 →
      (RebalanceChildToLeft parent src dest cp cnt).1.keys j = parent.keys j) ∧
    (RebalanceChildToLeft parent src dest cp cnt).2.1.num_items = src.num_items - cnt ∧
    (RebalanceChildToLeft parent src dest cp cnt).2.1.leaf = src.leaf ∧
    (RebalanceChildToLeft parent src dest cp cnt).2.1.keyList
      = (List.range (src.num_items - cnt)).map (fun x => src.keys (cnt + x)) ∧
    (RebalanceChildToLeft parent src dest cp cnt).2.2.num_items = dest.num_items + cnt ∧
    (RebalanceChildToLeft parent src dest cp cnt).2.2.leaf = dest.leaf ∧
    (RebalanceChildToLeft parent src dest cp cnt).2.2.keyList
      = dest.keyList ++ parent.keys (cp - 1) :: (List.range (cnt - 1)).map src.keys := by
  have hsrc1_frame : ∀ m : BPTreeNode K,
      (forUp cnt src.num_items (fun i s => s.setKey (i - cnt) (s.keys i)) m).children
          = m.children ∧
      (forUp cnt src.num_items (fun i s => s.setKey (i - cnt) (s.keys i)) m).num_items
          = m.num_items ∧
      (forUp cnt src.num_items (fun i s => s.setKey (i - cnt) (s.keys i)) m).leaf = m.leaf :=
    fun m => @forUp_children_frame K cnt src.num_items
      (fun i s => s.setKey (i - cnt) (s.keys i)) (fun i a _ _ => ⟨rfl, rfl, rfl⟩) m
  have hdk_frame : ∀ m : BPTreeNode K,
      (forUp 1 cnt (fun i d => d.setKey (dest.num_items + i) (src.keys (i - 1))) m).children
          = m.children ∧
      (forUp 1 cnt (fun i d => d.setKey (dest.num_items + i) (src.keys (i - 1))) m).num_items
          = m.num_items ∧
      (forUp 1 cnt (fun i d => d.setKey (dest.num_items + i) (src.keys (i - 1))) m).leaf
          = m.leaf :=
    fun m => @forUp_children_frame K 1 cnt
      (fun i d => d.setKey (dest.num_items + i) (src.keys (i - 1)))
      (fun i a _ _ => ⟨rfl, rfl, rfl⟩) m
  have hdc_frame : ∀ (w : Nat → Nat) (m : BPTreeNode K),
      (forUp 0 cnt (fun i d => d.setChild (1 + d.num_items + i) (w i)) m).keys = m.keys ∧
      (forUp 0 cnt (fun i d => d.setChild (1 + d.num_items + i) (w i)) m).num_items
          = m.num_items ∧
      (forUp 0 cnt (fun i d => d.setChild (1 + d.num_items + i) (w i)) m).leaf = m.leaf :=
    fun w m => @forUp_keys_frame K 0 cnt (fun i d => d.setChild (1 + d.num_items + i) (w i))
      (fun i a _ _ => ⟨rfl, rfl, rfl⟩) m
  have hsc_frame : ∀ (hi : Nat) (m : BPTreeNode K),
      (forUp cnt hi (fun i s => (s.setChild (i - cnt) (s.children i)).setChild i 0) m).keys
          = m.keys ∧
      (forUp cnt hi
        (fun i s => (s.setChild (i - cnt) (s.children i)).setChild i 0) m).num_items
          = m.num_items ∧
      (forUp cnt hi (fun i s => (s.setChild (i - cnt) (s.children i)).setChild i 0) m).leaf
          = m.leaf :=
    fun hi m => @forUp_keys_frame K cnt hi
      (fun i s => (s.setChild (i - cnt) (s.children i)).setChild i 0)
      (fun i a _ _ => ⟨rfl, rfl, rfl⟩) m
  have hdk_lo : ∀ (m : BPTreeNode K) (j : Nat), j ≤ dest.num_items →
      (forUp 1 cnt (fun i d => d.setKey (dest.num_items + i) (src.keys (i - 1))) m).keys j
        = m.keys j :=
    fun m j hj =>
      forUp_setKey_keys_of_notin (fun i => dest.num_items + i) (fun i => src.keys (i - 1)) m
        (fun i hA hB => by show dest.num_items + i ≠ j; omega)
  have hdk_hit : ∀ (m : BPTreeNode K) (x : Nat), x < cnt - 1 →
      (forUp 1 cnt (fun i d => d.setKey (dest.num_items + i) (src.keys (i - 1))) m).keys
          (dest.num_items + 1 + x) = src.keys x := by
    intro m x hx
    have h := @forUp_setKey_keys_of_hit K 1 cnt (fun i => dest.num_items + i)
      (fun i => src.keys (i - 1)) m (dest.num_items + 1 + x) (x + 1) (by omega) (by omega)
      (by show dest.num_items + (x + 1) = dest.num_items + 1 + x; omega)
      (fun i hA hB => by show dest.num_items + i ≠ dest.num_items + 1 + x; omega)
    simpa using h
  have hsrc_shift : ∀ j,
      (forUp cnt src.num_items (fun i s => s.setKey (i - cnt) (s.keys i)) src).keys j
        = if j < src.num_items - cnt then src.keys (j + cnt) else src.keys j :=
    forUp_shift_self_keys' src cnt src.num_items h1 h2
  refine ⟨?_, ?_, ?_, ?_, fun j hj => ?_, ?_, ?_, ?_, ?_, ?_, ?_⟩
  · simp only [RebalanceChildToLeft, setKey_num_items]
  · simp only [RebalanceChildToLeft, setKey_leaf]
  · simp only [RebalanceChildToLeft, setKey_children]
  · simp only [RebalanceChildToLeft]
    exact setKey_keys_same _ _ _
  · simp only [RebalanceChildToLeft]
    exact setKey_keys_other _ _ _ hj
  · simp only [RebalanceChildToLeft, withNum_num_items]
    split
    · rw [(hsrc1_frame _).2.1]
    · rw [(hsc_frame _ _).2.1, (hsrc1_frame _).2.1]
  · simp only [RebalanceChildToLeft, withNum_leaf]
    split
    · rw [(hsrc1_frame _).2.2]
    · rw [(hsc_frame _ _).2.2, (hsrc1_frame _).2.2]
  · simp only [RebalanceChildToLeft, keyList, withNum_num_items, withNum_keys]
    split
    · rw [(hsrc1_frame _).2.1]
      refine List.map_congr_left fun a ha => ?_
      rw [List.mem_range] at ha
      rw [hsrc_shift a, if_pos ha]
      congr 1
      omega
    · rw [(hsc_frame _ _).2.1, (hsrc1_frame _).2.1]
      refine List.map_congr_left fun a ha => ?_
      rw [List.mem_range] at ha
      rw [congrFun (hsc_frame _ _).1 a, hsrc_shift a, if_pos ha]
      congr 1
      omega
  · simp only [RebalanceChildToLeft, withNum_num_items]
    split
    · rw [(hdk_frame _).2.1, setKey_num_items]
    · rw [(hdc_frame _ _).2.1, (hdk_frame _).2.1, setKey_num_items]
  · simp only [RebalanceChildToLeft, withNum_leaf]
    split
    · rw [(hdk_frame _).2.2, setKey_leaf]
    · rw [(hdc_frame _ _).2.2, (hdk_frame _).2.2, setKey_leaf]
  · simp only [RebalanceChildToLeft, keyList, withNum_num_items, withNum_keys]
    split
    · rw [(hdk_frame _).2.1, setKey_num_items]
      rw [map_range_eq_append_cons _ (dest.num_items + cnt) dest.num_items (by omega)]
      rw [show dest.num_items + cnt - dest.num_items - 1 = cnt - 1 from by omega]
      congr 1
      · refine List.map_congr_left fun a ha => ?_
        rw [List.mem_range] at ha
        rw [hdk_lo _ a (by omega), setKey_keys_other _ _ _ (by omega)]
      · congr 1
        · rw [hdk_lo _ dest.num_items (Nat.le_refl _), setKey_keys_same]
        · refine List.map_congr_left fun a ha => ?_
          rw [List.mem_range] at ha
          exact hdk_hit _ a ha
    · rw [(hdc_frame _ _).2.1, (hdk_frame _).2.1, setKey_num_items]
      rw [map_range_eq_append_cons _ (dest.num_items + cnt) dest.num_items (by omega)]
      rw [show dest.num_items + cnt - dest.num_items - 1 = cnt - 1 from by omega]
      congr 1
      · refine List.map_congr_left fun a ha => ?_
        rw [List.mem_range] at ha
        rw [congrFun (hdc_frame _ _).1 a, hdk_lo _ a (by omega),
          setKey_keys_other _ _ _ (by omega)]
      · congr 1
        · rw [congrFun (hdc_frame _ _).1 dest.num_items, hdk_lo _ dest.num_items (Nat.le_refl _),
            setKey_keys_same]
        · refine List.map_congr_left fun a ha => ?_
          rw [List.mem_range] at ha
          rw [congrFun (hdc_frame _ _).1 (dest.num_items + 1 + a)]
          exact hdk_hit _ a ha

/-- Field-level description of `RebalanceChildToRight`: the destination keys
shift up by `count`, the `count - 1` trailing keys of the source and the old
parent separator fill the low slots, the source's key `num_items - count`
becomes the new separator, and the counts move by exactly `count`. -/
theorem RebalanceChildToRight_spec (parent src dest : BPTreeNode K) (cp cnt : Nat)
    (h1 : 1 ≤ cnt) (h2 : cnt ≤ src.num_items) :
    (RebalanceChildToRight parent src dest cp cnt).1.num_items = parent.num_items ∧
    (RebalanceChildToRight parent src dest cp cnt).1.leaf = parent.leaf ∧
    (RebalanceChildToRight parent src dest cp cnt).1.children = parent.children ∧
    (RebalanceChildToRight parent src dest cp cnt).1.keys cp
      = src.keys (src.num_items - cnt) ∧
    (∀ j, j ≠ cp →
      (RebalanceChildToRight parent src dest cp cnt).1.keys j = parent.keys j) ∧
    (RebalanceChildToRight parent src dest cp cnt).2.1.num_items = src.num_items - cnt ∧
    (RebalanceChildToRight parent src dest cp cnt).2.1.leaf = src.leaf ∧
    (RebalanceChildToRight parent src dest cp cnt).2.1.keyList
      = (List.range (src.num_items - cnt)).map src.keys ∧
    (RebalanceChildToRight parent src dest cp cnt).2.2.num_items = dest.num_items + cnt ∧
    (RebalanceChildToRight parent src dest cp cnt).2.2.leaf = dest.leaf ∧
    (RebalanceChildToRight parent src dest cp cnt).2.2.keyList
      = (List.range (cnt - 1)).map (fun x => src.keys (src.num_items - cnt + 1 + x))
        ++ parent.keys cp :: dest.keyList := by
  have hd1 : ∀ (m : BPTreeNode K) (j : Nat),
      (forDown dest.num_items (fun i d => d.setKey (i + cnt) (d.keys i)) m).keys j
        = if cnt ≤ j ∧ j < dest.num_items + cnt then m.keys (j - cnt) else m.keys j :=
    fun m j => forDown_shift_self_keys cnt dest.num_items m j
  have hd1_frame : ∀ m : BPTreeNode K,
      (forDown dest.num_items (fun i d => d.setKey (i + cnt) (d.keys i)) m).children
          = m.children ∧
      (forDown dest.num_items (fun i d => d.setKey (i + cnt) (d.keys i)) m).num_items
          = m.num_items ∧
      (forDown dest.num_items (fun i d => d.setKey (i + cnt) (d.keys i)) m).leaf = m.leaf :=
    fun m => @forDown_children_frame K dest.num_items
      (fun i d => d.setKey (i + cnt) (d.keys i)) (fun i a _ => ⟨rfl, rfl, rfl⟩) m
  have hd2_frame : ∀ m : BPTreeNode K,
      (forUp 1 cnt
        (fun i d => d.setKey (i - 1) (src.keys (src.num_items - cnt + i))) m).children
          = m.children ∧
      (forUp 1 cnt
        (fun i d => d.setKey (i - 1) (src.keys (src.num_items - cnt + i))) m).num_items
          = m.num_items ∧
      (forUp 1 cnt
        (fun i d => d.setKey (i - 1) (src.keys (src.num_items - cnt + i))) m).leaf
          = m.leaf :=
    fun m => @forUp_children_frame K 1 cnt
      (fun i d => d.setKey (i - 1) (src.keys (src.num_items - cnt + i)))
      (fun i a _ _ => ⟨rfl, rfl, rfl⟩) m
  have hd2_lo : ∀ (m : BPTreeNode K) (j : Nat), cnt - 1 ≤ j →
      (forUp 1 cnt
        (fun i d => d.setKey (i - 1) (src.keys (src.num_items - cnt + i))) m).keys j
        = m.keys j :=
    fun m j hj =>
      forUp_setKey_keys_of_notin (fun i => i - 1)
        (fun i => src.keys (src.num_items - cnt + i)) m
        (fun i hA hB => by show i - 1 ≠ j; omega)
  have hd2_hit : ∀ (m : BPTreeNode K) (x : Nat), x < cnt - 1 →
      (forUp 1 cnt
        (fun i d => d.setKey (i - 1) (src.keys (src.num_items - cnt + i))) m).keys x
        = src.keys (src.num_items - cnt + 1 + x) := by
    intro m x hx
    have h := @forUp_setKey_keys_of_hit K 1 cnt (fun i => i - 1)
      (fun i => src.keys (src.num_items - cnt + i)) m x (x + 1) (by omega) (by omega)
      (by show x + 1 - 1 = x; omega)
      (fun i hA hB => by show i - 1 ≠ x; omega)
    rw [h]
    show src.keys (src.num_items - cnt + (x + 1)) = src.keys (src.num_items - cnt + 1 + x)
    congr 1
    omega
  have hd4_frame : ∀ m : BPTreeNode K,
      (forDown (dest.num_items + 1)
        (fun i d => d.setChild (i + cnt) (d.children i)) m).keys = m.keys ∧
      (forDown (dest.num_items + 1)
        (fun i d => d.setChild (i + cnt) (d.children i)) m).num_items = m.num_items ∧
      (forDown (dest.num_items + 1)
        (fun i d => d.setChild (i + cnt) (d.children i)) m).leaf = m.leaf :=
    fun m => @forDown_keys_frame K (dest.num_items + 1)
      (fun i d => d.setChild (i + cnt) (d.children i)) (fun i a _ => ⟨rfl, rfl, rfl⟩) m
  have hpair_frame : ∀ a : BPTreeNode K × BPTreeNode K,
      (forUp 0 cnt
        (fun i p => (p.1.setChild i (p.2.children (p.2.num_items - (cnt - 1) + i)),
          p.2.setChild (p.2.num_items - (cnt - 1) + i) 0)) a).1.keys = a.1.keys ∧
      (forUp 0 cnt
        (fun i p => (p.1.setChild i (p.2.children (p.2.num_items - (cnt - 1) + i)),
          p.2.setChild (p.2.num_items - (cnt - 1) + i) 0)) a).1.num_items = a.1.num_items ∧
      (forUp 0 cnt
        (fun i p => (p.1.setChild i (p.2.children (p.2.num_items - (cnt - 1) + i)),
          p.2.setChild (p.2.num_items - (cnt - 1) + i) 0)) a).1.leaf = a.1.leaf ∧
      (forUp 0 cnt
        (fun i p => (p.1.setChild i (p.2.children (p.2.num_items - (cnt - 1) + i)),
          p.2.setChild (p.2.num_items - (cnt - 1) + i) 0)) a).2.keys = a.2.keys ∧
      (forUp 0 cnt
        (fun i p => (p.1.setChild i (p.2.children (p.2.num_items - (cnt - 1) + i)),
          p.2.setChild (p.2.num_items - (cnt - 1) + i) 0)) a).2.num_items = a.2.num_items ∧
      (forUp 0 cnt
        (fun i p => (p.1.setChild i (p.2.children (p.2.num_items - (cnt - 1) + i)),
          p.2.setChild (p.2.num_items - (cnt - 1) + i) 0)) a).2.leaf = a.2.leaf :=
    fun a => @forUp_pair_frame K 0 cnt
      (fun i p => (p.1.setChild i (p.2.children (p.2.num_items - (cnt - 1) + i)),
        p.2.setChild (p.2.num_items - (cnt - 1) + i) 0))
      (fun i p _ _ => ⟨rfl, rfl, rfl, rfl, rfl, rfl⟩) a
  refine ⟨?_, ?_, ?_, ?_, fun j hj => ?_, ?_, ?_, ?_, ?_, ?_, ?_⟩
  · simp only [RebalanceChildToRight, setKey_num_items]
  · simp only [RebalanceChildToRight, setKey_leaf]
  · simp only [RebalanceChildToRight, setKey_children]
  · simp only [RebalanceChildToRight]
    exact setKey_keys_same _ _ _
  · simp only [RebalanceChildToRight]
    exact setKey_keys_other _ _ _ hj
  · simp only [RebalanceChildToRight, withNum_num_items]
    split
    · rfl
    · simp only [hpair_frame]
  · simp only [RebalanceChildToRight, withNum_leaf]
    split
    · rfl
    · simp only [hpair_frame]
  · simp only [RebalanceChildToRight, keyList, withNum_num_items, withNum_keys]
    split
    · rfl
    · simp only [hpair_frame]
  · simp only [RebalanceChildToRight, withNum_num_items]
    split
    · simp only [setKey_num_items, hd2_frame, hd1_frame]
    · simp only [hpair_frame, hd4_frame, setKey_num_items, hd2_frame, hd1_frame]
  · simp only [RebalanceChildToRight, withNum_leaf]
    split
    · simp only [setKey_leaf, hd2_frame, hd1_frame]
    · simp only [hpair_frame, hd4_frame, setKey_leaf, hd2_frame, hd1_frame]
  · simp only [RebalanceChildToRight, keyList, withNum_num_items, withNum_keys]
    split
    · simp only [setKey_num_items, hd2_frame, hd1_frame]
      rw [map_range_eq_append_cons _ (dest.num_items + cnt) (cnt - 1) (by omega)]
      rw [show dest.num_items + cnt - (cnt - 1) - 1 = dest.num_items from by omega]
      congr 1
      · refine List.map_congr_left fun a ha => ?_
        rw [List.mem_range] at ha
        rw [setKey_keys_other _ _ _ (by omega)]
        exact hd2_hit _ a ha
      · congr 1
        · exact setKey_keys_same _ _ _
        · refine List.map_congr_left fun a ha => ?_
          rw [List.mem_range] at ha
          rw [setKey_keys_other _ _ _ (by show cnt - 1 + 1 + a ≠ cnt - 1; omega)]
          rw [hd2_lo _ _ (by omega), hd1 _ _, if_pos (by omega)]
          congr 1
          omega
    · simp only [hpair_frame, hd4_frame, setKey_num_items, hd2_frame, hd1_frame]
      rw [map_range_eq_append_cons _ (dest.num_items + cnt) (cnt - 1) (by omega)]
      rw [show dest.num_items + cnt - (cnt - 1) - 1 = dest.num_items from by omega]
      congr 1
      · refine List.map_congr_left fun a ha => ?_
        rw [List.mem_range] at ha
        rw [setKey_keys_other _ _ _ (by omega)]
        exact hd2_hit _ a ha
      · congr 1
        · exact setKey_keys_same _ _ _
        · refine List.map_congr_left fun a ha => ?_
          rw [List.mem_range] at ha
          rw [setKey_keys_other _ _ _ (by show cnt - 1 + 1 + a ≠ cnt - 1; omega)]
          rw [hd2_lo _ _ (by omega), hd1 _ _, if_pos (by omega)]
          congr 1
          omega

/-- Invariant-based description of the `BSearch` loop: assuming the slots are
compatible with a search for `key` (every slot at which `key` compares `≤ 0`
pushes all later slots to `< 0`), the loop returns the boundary position
between the slots comparing `> 0` and those comparing `< 0`. -/
theorem bsearchLoop_spec (cmp : K → K → Int) (key : K) (ks : Nat → K) (N : Nat)
    (hmono : ∀ i j, i < j → j < N → cmp key (ks i) ≤ 0 → cmp key (ks j) < 0) :
    ∀ (d lo hi : Nat), hi - lo ≤ d → lo ≤ hi → hi ≤ N →
      (∀ j, j < lo → 0 < cmp key (ks j)) →
      (∀ j, hi ≤ j → j < N → cmp key (ks j) < 0) →
      (lo ≤ (bsearchLoop cmp key ks lo hi).index ∧
        (bsearchLoop cmp key ks lo hi).index ≤ hi) ∧
      (∀ j, j < (bsearchLoop cmp key ks lo hi).index → 0 < cmp key (ks j)) ∧
      ((bsearchLoop cmp key ks lo hi).index < N →
        cmp key (ks (bsearchLoop cmp key ks lo hi).index) ≤ 0) ∧
      ((bsearchLoop cmp key ks lo hi).found = true ↔
        ((bsearchLoop cmp key ks lo hi).index < N ∧
          cmp key (ks (bsearchLoop cmp key ks lo hi).index) = 0)) := by
  intro d
  induction d with
  | zero =>
    intro lo hi hd hle hN hl hr
    rw [bsearchLoop, dif_neg (by omega)]
    simp only [SearchResult.index_mk, SearchResult.found_mk]
    refine ⟨⟨by omega, Nat.le_refl _⟩, fun j hj => hl j (by omega),
      fun hlt => Int.le_of_lt (hr hi (Nat.le_refl _) hlt),
      ⟨fun h => absurd h (by decide),
        fun hx => absurd hx.2 (by have := hr hi (Nat.le_refl _) hx.1; omega)⟩⟩
  | succ d ih =>
    intro lo hi hd hle hN hl hr
    rw [bsearchLoop]
    by_cases hlt : lo < hi
    · rw [dif_pos hlt]
      simp only []
      have hmid1 : lo ≤ (lo + hi) / 2 := by omega
      have hmid2 : (lo + hi) / 2 < hi := by omega
      by_cases hc0 : cmp key (ks ((lo + hi) / 2)) = 0
      · rw [if_pos hc0]
        simp only [SearchResult.index_mk, SearchResult.found_mk]
        refine ⟨⟨by omega, by omega⟩, fun j hj => ?_, fun _ => by omega,
          ⟨fun _ => ⟨by omega, hc0⟩, fun _ => trivial⟩⟩
        by_cases hjlo : j < lo
        · exact hl j hjlo
        · by_contra hle0
          have h1 : cmp key (ks j) ≤ 0 := by omega
          have := hmono j ((lo + hi) / 2) (by omega) (by omega) h1
          omega
      · rw [if_neg hc0]
        by_cases hneg : cmp key (ks ((lo + hi) / 2)) < 0
        · rw [if_pos hneg]
          have hrnew : ∀ j, (lo + hi) / 2 ≤ j → j < N → cmp key (ks j) < 0 := by
            intro j hj hjN
            rcases Nat.eq_or_lt_of_le hj with hj' | hj'
            · rw [← hj']
              exact hneg
            · exact hmono ((lo + hi) / 2) j hj' hjN (Int.le_of_lt hneg)
          obtain ⟨⟨ha1, ha2⟩, hb, hc, hd2⟩ :=
            ih lo ((lo + hi) / 2) (by omega) (by omega) (by omega) hl hrnew
          exact ⟨⟨ha1, by omega⟩, hb, hc, hd2⟩
        · rw [if_neg hneg]
          have hlnew : ∀ j, j < (lo + hi) / 2 + 1 → 0 < cmp key (ks j) := by
            intro j hj
            by_cases hjlo : j < lo
            · exact hl j hjlo
            · by_cases hjm : j = (lo + hi) / 2
              · rw [hjm]
                omega
              · by_contra hle0
                have h1 : cmp key (ks j) ≤ 0 := by omega
                have := hmono j ((lo + hi) / 2) (by omega) (by omega) h1
                omega
          obtain ⟨⟨ha1, ha2⟩, hb, hc, hd2⟩ :=
            ih ((lo + hi) / 2 + 1) hi (by omega) (by omega) hN hlnew hr
          exact ⟨⟨by omega, ha2⟩, hb, hc, hd2⟩
    · rw [dif_neg hlt]
      simp only [SearchResult.index_mk, SearchResult.found_mk]
      refine ⟨⟨by omega, Nat.le_refl _⟩, fun j hj => hl j (by omega),
        fun h => Int.le_of_lt (hr hi (Nat.le_refl _) h),
        ⟨fun h => absurd h (by decide),
          fun hx => absurd hx.2 (by have := hr hi (Nat.le_refl _) hx.1; omega)⟩⟩

/-- Pointwise form of a `Pairwise` hypothesis over `keyList`. -/
theorem keyList_pairwise_iff {R : K → K → Prop} (n : BPTreeNode K) :
    n.keyList.Pairwise R
      ↔ ∀ i j, i < j → j < n.num_items → R (n.keys i) (n.keys j) := by
  rw [List.pairwise_iff_getElem]
  constructor
  · intro h i j hij hj
    have := h i j (by simp [keyList]; omega) (by simp [keyList]; omega) hij
    simpa [keyList] using this
  · intro h i j hi hj hij
    have hi' : i < n.num_items := by simpa [keyList] using hi
    have hj' : j < n.num_items := by simpa [keyList] using hj
    simpa [keyList] using h i j hij hj'

/-- C1: for every node whose keys are strictly increasing under the
comparator (and any comparator that is transitively coherent), `BSearch`
returns the smallest index `i ∈ [0, count]` such that `i = count` or the key
at slot `i` compares `≥` the searched key, with `found = true` exactly when
the key at slot `i` compares equal to the searched key. -/
theorem C1_bsearch_smallest_geq (K : Type) (cmp : K → K → Int) (n : BPTreeNode K) (key : K)
    (hinc : n.keyList.Pairwise (fun a b => cmp a b < 0))
    (hcoh : ∀ a b c, cmp a b ≤ 0 → cmp b c < 0 → cmp a c < 0) :
    (n.BSearch key cmp).index ≤ n.num_items ∧
    ((n.BSearch key cmp).index = n.num_items ∨
      cmp key (n.keys (n.BSearch key cmp).index) ≤ 0) ∧
    (∀ j, j < (n.BSearch key cmp).index → 0 < cmp key (n.keys j)) ∧
    ((n.BSearch key cmp).found = true ↔
      ((n.BSearch key cmp).index < n.num_items ∧
        cmp key (n.keys (n.BSearch key cmp).index) = 0)) := by
  simp only [BSearch]
  have hinc' : ∀ i j, i < j → j < n.num_items → cmp (n.keys i) (n.keys j) < 0 :=
    (keyList_pairwise_iff n).mp hinc
  have hmono : ∀ i j, i < j → j < n.num_items →
      cmp key (n.keys i) ≤ 0 → cmp key (n.keys j) < 0 :=
    fun i j hij hj hle => hcoh key (n.keys i) (n.keys j) hle (hinc' i j hij hj)
  obtain ⟨⟨ha1, ha2⟩, hb, hc, hd⟩ :=
    bsearchLoop_spec cmp key n.keys n.num_items hmono n.num_items 0 n.num_items (by omega)
      (by omega) (Nat.le_refl _) (fun j hj => absurd hj (by omega))
      (fun j hj hjN => absurd hjN (by omega))
  refine ⟨ha2, ?_, hb, hd⟩
  by_cases hx : (bsearchLoop cmp key n.keys 0 n.num_items).index < n.num_items
  · exact Or.inr (hc hx)
  · exact Or.inl (by omega)

/-- C3: for every node with `count ≥ 1` and strictly increasing keys,
`Split` extracts the key at slot `m = count / 2` as the median, moves keys
`[m+1, count)` (and for inner nodes children `[m+1, count]`) in order into
`right`, sets the counts to `m` and `count - m - 1` (so that
`left.count + right.count + 1 = count`), copies the leaf flag, and leaves
every left key below the median and the median below every right key, with
both nodes still strictly increasing. -/
theorem C3_split_median_extraction (K : Type) [LinearOrder K] (n right : BPTreeNode K)
    (hn : 1 ≤ n.num_items) (hsorted : n.keyList.Pairwise (· < ·)) :
    (n.Split right).2.2 = n.keys (n.num_items / 2) ∧
    (n.Split right).1.num_items = n.num_items / 2 ∧
    (n.Split right).2.1.num_items = n.num_items - (n.num_items / 2 + 1) ∧
    (n.Split right).1.num_items + (n.Split right).2.1.num_items + 1 = n.num_items ∧
    (n.Split right).2.1.leaf = n.leaf ∧
    (n.Split right).1.keyList = (List.range (n.num_items / 2)).map n.keys ∧
    (n.Split right).2.1.keyList
      = (List.range (n.num_items - (n.num_items / 2 + 1))).map
          (fun x => n.keys (n.num_items / 2 + 1 + x)) ∧
    (n.leaf = false →
      (n.Split right).2.1.childList
        = (List.range (n.num_items - (n.num_items / 2 + 1) + 1)).map
            (fun x => n.children (n.num_items / 2 + 1 + x))) ∧
    (∀ k ∈ (n.Split right).1.keyList, k < (n.Split right).2.2) ∧
    (∀ k ∈ (n.Split right).2.1.keyList, (n.Split right).2.2 < k) ∧
    (n.Split right).1.keyList.Pairwise (· < ·) ∧
    (n.Split right).2.1.keyList.Pairwise (· < ·) := by
  obtain ⟨s1, s2, s3, s4, s5, s6, s7, s8⟩ := Split_spec n right
  have hp : ∀ i j, i < j → j < n.num_items → n.keys i < n.keys j :=
    (keyList_pairwise_iff n).mp hsorted
  have hmidlt : n.num_items / 2 < n.num_items := by omega
  have hleft : (n.Split right).1.keyList = (List.range (n.num_items / 2)).map n.keys := by
    rw [keyList, s2, s3]
  have hright : (n.Split right).2.1.keyList
      = (List.range (n.num_items - (n.num_items / 2 + 1))).map
          (fun x => n.keys (n.num_items / 2 + 1 + x)) := by
    rw [keyList, s5]
    refine List.map_congr_left fun a ha => ?_
    rw [List.mem_range] at ha
    exact s7 a ha
  refine ⟨s1, s2, s5, by omega, s6, hleft, hright, ?_, ?_, ?_, ?_, ?_⟩
  · intro hfalse
    rw [childList, s5]
    refine List.map_congr_left fun a ha => ?_
    rw [List.mem_range] at ha
    exact s8 hfalse a (by omega)
  · intro k hk
    rw [hleft, List.mem_map] at hk
    obtain ⟨a, ha, rfl⟩ := hk
    rw [List.mem_range] at ha
    rw [s1]
    exact hp a (n.num_items / 2) (by omega) hmidlt
  · intro k hk
    rw [hright, List.mem_map] at hk
    obtain ⟨a, ha, rfl⟩ := hk
    rw [List.mem_range] at ha
    rw [s1]
    exact hp (n.num_items / 2) (n.num_items / 2 + 1 + a) (by omega) (by omega)
  · rw [hleft, List.pairwise_iff_getElem]
    intro i j hi hj hij
    simp only [List.getElem_map, List.getElem_range]
    have hi' : i < n.num_items / 2 := by simpa using hi
    have hj' : j < n.num_items / 2 := by simpa using hj
    exact hp i j hij (by omega)
  · rw [hright, List.pairwise_iff_getElem]
    intro i j hi hj hij
    simp only [List.getElem_map, List.getElem_range]
    have hi' : i < n.num_items - (n.num_items / 2 + 1) := by simpa using hi
    have hj' : j < n.num_items - (n.num_items / 2 + 1) := by simpa using hj
    exact hp (n.num_items / 2 + 1 + i) (n.num_items / 2 + 1 + j) (by omega) (by omega)

/-- C6: for every pair of same-kind nodes with
`count + 1 + right.count ≤ max`, `MergeFromRight` makes the destination's
key sequence its old keys, then the separator, then `right`'s keys (and for
inner nodes appends all of `right`'s `count + 1` children), updates the
count accordingly, and empties `right`. -/
theorem C6_merge_from_right (K : Type) (s : Nat) (n right : BPTreeNode K) (key : K)
    (hpre : n.num_items + 1 + right.num_items ≤ MaxItems s n)
    (hkind : right.leaf = n.leaf) :
    (n.MergeFromRight key right).1.keyList = n.keyList ++ key :: right.keyList ∧
    (n.leaf = false →
      (n.MergeFromRight key right).1.childList = n.childList ++ right.childList) ∧
    (n.MergeFromRight key right).1.num_items = n.num_items + 1 + right.num_items ∧
    (n.MergeFromRight key right).2.num_items = 0 := by
  obtain ⟨m1, m2, m3, m4, m5, m6⟩ := MergeFromRight_spec n key right
  exact ⟨m5, m6, m1, m3⟩

/-- C7 (amended): `ShiftLeft(i, child_step_right)` removes the key at slot
`i`; for an inner node it removes the child at slot `i + child_step_right`
when `i` is not the last key slot, but when `i = count - 1` the guarded move
loop does not run and the trailing child (slot `count`) is the one dropped,
regardless of `child_step_right`. -/
theorem C7_shift_left_amended (K : Type) (n : BPTreeNode K) (i : Nat) (b : Bool)
    (h : i < n.num_items) :
    (n.ShiftLeft i b).num_items = n.num_items - 1 ∧
    (n.ShiftLeft i b).keyList = n.keyList.eraseIdx i ∧
    (n.leaf = false →
      (n.ShiftLeft i b).childList
        = n.childList.eraseIdx
            (if i + 1 < n.num_items then (if b then i + 1 else i) else n.num_items)) :=
  ⟨ShiftLeft_num_items n i b, ShiftLeft_keyList n i b h,
    fun hleaf => ShiftLeft_childList n i b h hleaf⟩

/-- Inner node with one key and children `10, 20` used to refute the original
reading of C7. -/
def c7Node : BPTreeNode Int where
  keys := fun _ => 0
  children := fun j => [10, 20].getD j 0
  num_items := 1
  leaf := false

/-- C7 counterexample: deleting the last (only) key of an inner node with
`child_step_right = false` does not remove the child at slot `i = 0` — the
code skips the move loop and drops the trailing child instead, so the
surviving child is slot `0`, not slot `1`. -/
theorem C7_cex_last_slot :
    (c7Node.ShiftLeft 0 false).childList ≠ c7Node.childList.eraseIdx 0 := by
  decide

/-- The rebalance-to-left primitive preserves the in-order sequence
`dest ++ separator ++ src`. -/
theorem RebalanceChildToLeft_combined (parent src dest : BPTreeNode K) (cp cnt : Nat)
    (h1 : 1 ≤ cnt) (h2 : cnt ≤ src.num_items) :
    (RebalanceChildToLeft parent src dest cp cnt).2.2.keyList
      ++ (RebalanceChildToLeft parent src dest cp cnt).1.keys (cp - 1)
        :: (RebalanceChildToLeft parent src dest cp cnt).2.1.keyList
      = dest.keyList ++ parent.keys (cp - 1) :: src.keyList := by
  obtain ⟨p1, p2, p3, p4, p5, s1, s2, s3, d1, d2, d3⟩ :=
    RebalanceChildToLeft_spec parent src dest cp cnt h1 h2
  rw [d3, p4, s3, show src.keyList = (List.range src.num_items).map src.keys from rfl]
  rw [map_range_eq_append_cons src.keys src.num_items (cnt - 1) (by omega)]
  rw [show src.num_items - (cnt - 1) - 1 = src.num_items - cnt from by omega]
  rw [show cnt - 1 + 1 = cnt from by omega]
  simp only [List.append_assoc, List.cons_append]

/-- The rebalance-to-right primitive preserves the in-order sequence
`src ++ separator ++ dest`. -/
theorem RebalanceChildToRight_combined (parent src dest : BPTreeNode K) (cp cnt : Nat)
    (h1 : 1 ≤ cnt) (h2 : cnt ≤ src.num_items) :
    (RebalanceChildToRight parent src dest cp cnt).2.1.keyList
      ++ (RebalanceChildToRight parent src dest cp cnt).1.keys cp
        :: (RebalanceChildToRight parent src dest cp cnt).2.2.keyList
      = src.keyList ++ parent.keys cp :: dest.keyList := by
  obtain ⟨p1, p2, p3, p4, p5, s1, s2, s3, d1, d2, d3⟩ :=
    RebalanceChildToRight_spec parent src dest cp cnt h1 h2
  rw [d3, p4, s3, show src.keyList = (List.range src.num_items).map src.keys from rfl]
  rw [map_range_eq_append_cons src.keys src.num_items (src.num_items - cnt) (by omega)]
  rw [show src.num_items - (src.num_items - cnt) - 1 = cnt - 1 from by omega]
  simp only [List.append_assoc, List.cons_append]

/-- C8: `RebalanceChildToLeft` and `RebalanceChildToRight`, under their
preconditions, leave the parent's item count (hence its child count) and its
child-pointer array unchanged, modify no parent key slot other than the
separator between the two siblings, move exactly `k` items (destination
`+k`, source `-k`), and preserve the combined multiset of keys held by the
separator and the two siblings. -/
theorem C8_rebalance_preserves_parent_and_keys (K : Type) (s : Nat)
    (pL sL dL : BPTreeNode K) (posL kL : Nat)
    (pR sR dR : BPTreeNode K) (posR kR : Nat)
    (hL1 : 1 ≤ posL) (hL2 : 1 ≤ kL) (hL3 : kL ≤ sL.num_items)
    (hL4 : kL ≤ AvailableSlotCount s dL)
    (hR1 : posR < pR.num_items) (hR2 : 1 ≤ kR) (hR3 : kR ≤ sR.num_items)
    (hR4 : kR ≤ AvailableSlotCount s dR) (hR5 : 1 ≤ dR.num_items) :
    ((RebalanceChildToLeft pL sL dL posL kL).1.num_items = pL.num_items ∧
      (RebalanceChildToLeft pL sL dL posL kL).1.children = pL.children ∧
      (∀ j, j ≠ posL - 1 →
        (RebalanceChildToLeft pL sL dL posL kL).1.keys j = pL.keys j) ∧
      (RebalanceChildToLeft pL sL dL posL kL).2.2.num_items = dL.num_items + kL ∧
      (RebalanceChildToLeft pL sL dL posL kL).2.1.num_items = sL.num_items - kL ∧
      (((RebalanceChildToLeft pL sL dL posL kL).2.2.keyList
          ++ (RebalanceChildToLeft pL sL dL posL kL).1.keys (posL - 1)
            :: (RebalanceChildToLeft pL sL dL posL kL).2.1.keyList : Multiset K)
        = (dL.keyList ++ pL.keys (posL - 1) :: sL.keyList : Multiset K))) ∧
    ((RebalanceChildToRight pR sR dR posR kR).1.num_items = pR.num_items ∧
      (RebalanceChildToRight pR sR dR posR kR).1.children = pR.children ∧
      (∀ j, j ≠ posR →
        (RebalanceChildToRight pR sR dR posR kR).1.keys j = pR.keys j) ∧
      (RebalanceChildToRight pR sR dR posR kR).2.2.num_items = dR.num_items + kR ∧
      (RebalanceChildToRight pR sR dR posR kR).2.1.num_items = sR.num_items - kR ∧
      (((RebalanceChildToRight pR sR dR posR kR).2.1.keyList
          ++ (RebalanceChildToRight pR sR dR posR kR).1.keys posR
            :: (RebalanceChildToRight pR sR dR posR kR).2.2.keyList : Multiset K)
        = (sR.keyList ++ pR.keys posR :: dR.keyList : Multiset K))) := by
  obtain ⟨p1, p2, p3, p4, p5, s1, s2, s3, d1, d2, d3⟩ :=
    RebalanceChildToLeft_spec pL sL dL posL kL hL2 hL3
  obtain ⟨q1, q2, q3, q4, q5, t1, t2, t3, e1, e2, e3⟩ :=
    RebalanceChildToRight_spec pR sR dR posR kR hR2 hR3
  refine ⟨⟨p1, p3, p5, d1, s1, ?_⟩, ⟨q1, q3, q5, e1, t1, ?_⟩⟩
  · exact congrArg _ (RebalanceChildToLeft_combined pL sL dL posL kL hL2 hL3)
  · exact congrArg _ (RebalanceChildToRight_combined pR sR dR posR kR hR2 hR3)

@[simp] theorem RCOut.res_mk (a : Option (SiblingTag × Nat)) (p l n r : BPTreeNode K) :
    (RCOut.mk a p l n r).res = a := rfl

@[simp] theorem RCOut.parent_mk (a : Option (SiblingTag × Nat)) (p l n r : BPTreeNode K) :
    (RCOut.mk a p l n r).parent = p := rfl

@[simp] theorem RCOut.left_mk (a : Option (SiblingTag × Nat)) (p l n r : BPTreeNode K) :
    (RCOut.mk a p l n r).left = l := rfl

@[simp] theorem RCOut.node_mk (a : Option (SiblingTag × Nat)) (p l n r : BPTreeNode K) :
    (RCOut.mk a p l n r).node = n := rfl

@[simp] theorem RCOut.right_mk (a : Option (SiblingTag × Nat)) (p l n r : BPTreeNode K) :
    (RCOut.mk a p l n r).right = r := rfl

/-- The `to_move` value computed by the left branch of `RebalanceChild`
(abbreviation used only to state lemmas; in the success case the
`to_move = 0` arm is unreachable). -/
def toMoveLeft (s : Nat) (left node : BPTreeNode K) (insert_pos : Nat) : Nat :=
  if insert_pos = node.num_items then AvailableSlotCount s left
  else AvailableSlotCount s left / 2

/-- The `to_move` value computed by the right branch of `RebalanceChild`. -/
def toMoveRight (s : Nat) (right : BPTreeNode K) (insert_pos : Nat) : Nat :=
  if insert_pos = 0 then AvailableSlotCount s right
  else AvailableSlotCount s right / 2

/-- When the right sibling cannot be used, `RebalanceChildRightPart` returns
`nullptr` and leaves every node unchanged. -/
theorem RebalanceChildRightPart_fail (s : Nat) (parent left node right : BPTreeNode K)
    (pos insert_pos : Nat)
    (h : ¬(pos < parent.num_items ∧ 0 < AvailableSlotCount s right ∧
          (insert_pos = 0 ∨ 1 < AvailableSlotCount s right))) :
    RebalanceChildRightPart s parent left node right pos insert_pos
      = ⟨none, parent, left, node, right⟩ := by
  simp only [RebalanceChildRightPart]
  by_cases h1 : pos < parent.num_items
  · rw [if_pos h1]
    by_cases h2 : 0 < AvailableSlotCount s right
    · rw [if_pos h2]
      have hni : ¬(insert_pos = 0 ∨ 1 < AvailableSlotCount s right) :=
        fun hx => h ⟨h1, h2, hx⟩
      have h3 : ¬(0 < (if insert_pos = 0 then AvailableSlotCount s right
          else if 1 < AvailableSlotCount s right then AvailableSlotCount s right / 2
          else 0)) := by
        rw [if_neg (fun hx => hni (Or.inl hx)), if_neg (fun hx => hni (Or.inr hx))]
        omega
      rw [if_neg h3]
    · rw [if_neg h2]
  · rw [if_neg h1]

/-- When the right sibling can be used, `RebalanceChildRightPart` performs
`RebalanceChildToRight` with the biased `to_move` and redirects the insert
position across the moved boundary. -/
theorem RebalanceChildRightPart_success (s : Nat) (parent left node right : BPTreeNode K)
    (pos insert_pos : Nat)
    (h : pos < parent.num_items ∧ 0 < AvailableSlotCount s right ∧
        (insert_pos = 0 ∨ 1 < AvailableSlotCount s right)) :
    RebalanceChildRightPart s parent left node right pos insert_pos
      = if (RebalanceChildToRight parent node right pos
            (toMoveRight s right insert_pos)).2.1.num_items < insert_pos then
          ⟨some (.rightSib, insert_pos
              - ((RebalanceChildToRight parent node right pos
                  (toMoveRight s right insert_pos)).2.1.num_items + 1)),
            (RebalanceChildToRight parent node right pos
              (toMoveRight s right insert_pos)).1,
            left,
            (RebalanceChildToRight parent node right pos
              (toMoveRight s right insert_pos)).2.1,
            (RebalanceChildToRight parent node right pos
              (toMoveRight s right insert_pos)).2.2⟩
        else
          ⟨some (.child, insert_pos),
            (RebalanceChildToRight parent node right pos
              (toMoveRight s right insert_pos)).1,
            left,
            (RebalanceChildToRight parent node right pos
              (toMoveRight s right insert_pos)).2.1,
            (RebalanceChildToRight parent node right pos
              (toMoveRight s right insert_pos)).2.2⟩ := by
  simp only [RebalanceChildRightPart]
  rw [if_pos h.1, if_pos h.2.1]
  have htm : (if insert_pos = 0 then AvailableSlotCount s right
      else if 1 < AvailableSlotCount s right then AvailableSlotCount s right / 2 else 0)
      = toMoveRight s right insert_pos := by
    by_cases hip : insert_pos = 0
    · rw [toMoveRight, if_pos hip, if_pos hip]
    · rw [toMoveRight, if_neg hip, if_neg hip, if_pos (h.2.2.resolve_left hip)]
  rw [htm]
  have htm_pos : 0 < toMoveRight s right insert_pos := by
    rw [toMoveRight]
    by_cases hip : insert_pos = 0
    · rw [if_pos hip]
      exact h.2.1
    · rw [if_neg hip]
      have := h.2.2.resolve_left hip
      omega
  rw [if_pos htm_pos]

/-- When the left sibling cannot be used, `RebalanceChild` falls through to
its right half. -/
theorem RebalanceChild_eq_rightPart (s : Nat) (parent left node right : BPTreeNode K)
    (pos insert_pos : Nat)
    (h : ¬(0 < pos ∧ 0 < AvailableSlotCount s left ∧
          (insert_pos = node.num_items ∨ 1 < AvailableSlotCount s left))) :
    RebalanceChild s parent left node right pos insert_pos
      = RebalanceChildRightPart s parent left node right pos insert_pos := by
  simp only [RebalanceChild]
  by_cases h1 : 0 < pos
  · rw [if_pos h1]
    by_cases h2 : 0 < AvailableSlotCount s left
    · rw [if_pos h2]
      have hni : ¬(insert_pos = node.num_items ∨ 1 < AvailableSlotCount s left) :=
        fun hx => h ⟨h1, h2, hx⟩
      have h3 : ¬(0 < (if insert_pos = node.num_items then AvailableSlotCount s left
          else if 1 < AvailableSlotCount s left then AvailableSlotCount s left / 2
          else 0)) := by
        rw [if_neg (fun hx => hni (Or.inl hx)), if_neg (fun hx => hni (Or.inr hx))]
        omega
      rw [if_neg h3]
    · rw [if_neg h2]
  · rw [if_neg h1]

/-- When the left sibling can be used, `RebalanceChild` performs
`RebalanceChildToLeft` with the biased `to_move` and redirects the insert
position across the moved boundary. -/
theorem RebalanceChild_left_success (s : Nat) (parent left node right : BPTreeNode K)
    (pos insert_pos : Nat)
    (h : 0 < pos ∧ 0 < AvailableSlotCount s left ∧
        (insert_pos = node.num_items ∨ 1 < AvailableSlotCount s left)) :
    RebalanceChild s parent left node right pos insert_pos
      = if insert_pos < toMoveLeft s left node insert_pos then
          ⟨some (.leftSib, left.num_items + insert_pos + 1),
            (RebalanceChildToLeft parent node left pos
              (toMoveLeft s left node insert_pos)).1,
            (RebalanceChildToLeft parent node left pos
              (toMoveLeft s left node insert_pos)).2.2,
            (RebalanceChildToLeft parent node left pos
              (toMoveLeft s left node insert_pos)).2.1,
            right⟩
        else
          ⟨some (.child, insert_pos - toMoveLeft s left node insert_pos),
            (RebalanceChildToLeft parent node left pos
              (toMoveLeft s left node insert_pos)).1,
            (RebalanceChildToLeft parent node left pos
              (toMoveLeft s left node insert_pos)).2.2,
            (RebalanceChildToLeft parent node left pos
              (toMoveLeft s left node insert_pos)).2.1,
            right⟩ := by
  simp only [RebalanceChild]
  rw [if_pos h.1, if_pos h.2.1]
  have htm : (if insert_pos = node.num_items then AvailableSlotCount s left
      else if 1 < AvailableSlotCount s left then AvailableSlotCount s left / 2 else 0)
      = toMoveLeft s left node insert_pos := by
    by_cases hip : insert_pos = node.num_items
    · rw [toMoveLeft, if_pos hip, if_pos hip]
    · rw [toMoveLeft, if_neg hip, if_neg hip, if_pos (h.2.2.resolve_left hip)]
  rw [htm]
  have htm_pos : 0 < toMoveLeft s left node insert_pos := by
    rw [toMoveLeft]
    by_cases hip : insert_pos = node.num_items
    · rw [if_pos hip]
      exact h.2.1
    · rw [if_neg hip]
      have := h.2.2.resolve_left hip
      omega
  rw [if_pos htm_pos]

/-- The `to_move` of the left branch never exceeds the full child's count
when the siblings are of the same kind. -/
theorem toMoveLeft_le (s : Nat) (left node : BPTreeNode K) (insert_pos : Nat)
    (hfull : node.num_items = MaxItems s node) (hkl : left.leaf = node.leaf) :
    toMoveLeft s left node insert_pos ≤ node.num_items := by
  have hmax : MaxItems s left = MaxItems s node := by
    rw [MaxItems, MaxItems, hkl]
  have hfree : AvailableSlotCount s left = MaxItems s left - left.num_items := rfl
  rw [toMoveLeft]
  by_cases hip : insert_pos = node.num_items
  · rw [if_pos hip]
    omega
  · rw [if_neg hip]
    omega

/-- The `to_move` of the right branch never exceeds the full child's count
when the siblings are of the same kind. -/
theorem toMoveRight_le (s : Nat) (right node : BPTreeNode K) (insert_pos : Nat)
    (hfull : node.num_items = MaxItems s node) (hkr : right.leaf = node.leaf) :
    toMoveRight s right insert_pos ≤ node.num_items := by
  have hmax : MaxItems s right = MaxItems s node := by
    rw [MaxItems, MaxItems, hkr]
  have hfree : AvailableSlotCount s right = MaxItems s right - right.num_items := rfl
  rw [toMoveRight]
  by_cases hip : insert_pos = 0
  · rw [if_pos hip]
    omega
  · rw [if_neg hip]
    omega

theorem toMoveLeft_pos (s : Nat) (left node : BPTreeNode K) (insert_pos : Nat)
    (h : 0 < AvailableSlotCount s left ∧
        (insert_pos = node.num_items ∨ 1 < AvailableSlotCount s left)) :
    0 < toMoveLeft s left node insert_pos := by
  rw [toMoveLeft]
  by_cases hip : insert_pos = node.num_items
  · rw [if_pos hip]
    exact h.1
  · rw [if_neg hip]
    have := h.2.resolve_left hip
    omega

theorem toMoveRight_pos (s : Nat) (right : BPTreeNode K) (insert_pos : Nat)
    (h : 0 < AvailableSlotCount s right ∧
        (insert_pos = 0 ∨ 1 < AvailableSlotCount s right)) :
    0 < toMoveRight s right insert_pos := by
  rw [toMoveRight]
  by_cases hip : insert_pos = 0
  · rw [if_pos hip]
    exact h.1
  · rw [if_neg hip]
    have := h.2.resolve_left hip
    omega

/-- C2 (amended): for an inner parent with a full child at `pos` and
same-kind siblings, `RebalanceChild` fails exactly when, for each adjacent
sibling, either it has no free slot, or it has exactly one free slot and the
pending insert is not at the corresponding far end of the child (position
`count` for the left sibling, `0` for the right).  When the left branch
succeeds it moves the whole free capacity of the left sibling if the insert
is at the child's right end and half of it otherwise; the right branch is
symmetric with insert position `0`; in both cases the sibling gains and the
child loses exactly that many items. -/
theorem C2_rebalance_child_amended (K : Type) (s : Nat)
    (parent left node right : BPTreeNode K) (pos insert_pos : Nat)
    (hfull : node.num_items = MaxItems s node)
    (hkl : left.leaf = node.leaf) (hkr : right.leaf = node.leaf) :
    ((RebalanceChild s parent left node right pos insert_pos).res = none ↔
      ¬((0 < pos ∧ 0 < AvailableSlotCount s left ∧
          (insert_pos = node.num_items ∨ 1 < AvailableSlotCount s left)) ∨
        (pos < parent.num_items ∧ 0 < AvailableSlotCount s right ∧
          (insert_pos = 0 ∨ 1 < AvailableSlotCount s right)))) ∧
    ((0 < pos ∧ 0 < AvailableSlotCount s left ∧
        (insert_pos = node.num_items ∨ 1 < AvailableSlotCount s left)) →
      (RebalanceChild s parent left node right pos insert_pos).left.num_items
          = left.num_items + toMoveLeft s left node insert_pos ∧
      (RebalanceChild s parent left node right pos insert_pos).node.num_items
          = node.num_items - toMoveLeft s left node insert_pos ∧
      (RebalanceChild s parent left node right pos insert_pos).res ≠ none) ∧
    (¬(0 < pos ∧ 0 < AvailableSlotCount s left ∧
        (insert_pos = node.num_items ∨ 1 < AvailableSlotCount s left)) →
      (pos < parent.num_items ∧ 0 < AvailableSlotCount s right ∧
        (insert_pos = 0 ∨ 1 < AvailableSlotCount s right)) →
      (RebalanceChild s parent left node right pos insert_pos).right.num_items
          = right.num_items + toMoveRight s right insert_pos ∧
      (RebalanceChild s parent left node right pos insert_pos).node.num_items
          = node.num_items - toMoveRight s right insert_pos ∧
      (RebalanceChild s parent left node right pos insert_pos).res ≠ none) := by
  by_cases hL : (0 < pos ∧ 0 < AvailableSlotCount s left ∧
      (insert_pos = node.num_items ∨ 1 < AvailableSlotCount s left))
  · rw [RebalanceChild_left_success s parent left node right pos insert_pos hL]
    obtain ⟨p1, p2, p3, p4, p5, s1, s2, s3, d1, d2, d3⟩ :=
      RebalanceChildToLeft_spec parent node left pos (toMoveLeft s left node insert_pos)
        (toMoveLeft_pos s left node insert_pos hL.2) (toMoveLeft_le s left node insert_pos hfull hkl)
    refine ⟨?_, fun _ => ?_, fun hnL _ => absurd hL hnL⟩
    · constructor
      · intro hres
        exfalso
        revert hres
        split <;> simp
      · intro hx
        exact absurd (Or.inl hL) hx
    · refine ⟨?_, ?_, ?_⟩
      · split <;> simpa using d1
      · split <;> simpa using s1
      · split <;> simp
  · rw [RebalanceChild_eq_rightPart s parent left node right pos insert_pos hL]
    by_cases hR : (pos < parent.num_items ∧ 0 < AvailableSlotCount s right ∧
        (insert_pos = 0 ∨ 1 < AvailableSlotCount s right))
    · rw [RebalanceChildRightPart_success s parent left node right pos insert_pos hR]
      obtain ⟨p1, p2, p3, p4, p5, s1, s2, s3, d1, d2, d3⟩ :=
        RebalanceChildToRight_spec parent node right pos (toMoveRight s right insert_pos)
          (toMoveRight_pos s right insert_pos hR.2)
          (toMoveRight_le s right node insert_pos hfull hkr)
      refine ⟨?_, fun hL2 => absurd hL2 hL, fun _ _ => ?_⟩
      · constructor
        · intro hres
          exfalso
          revert hres
          split <;> simp
        · intro hx
          exact absurd (Or.inr hR) hx
      · refine ⟨?_, ?_, ?_⟩
        · split <;> simpa using d1
        · split <;> simpa using s1
        · split <;> simp
    · rw [RebalanceChildRightPart_fail s parent left node right pos insert_pos hR]
      refine ⟨⟨fun _ => ?_, fun _ => rfl⟩, fun hL2 => absurd hL2 hL,
        fun _ hR2 => absurd hR2 hR⟩
      rintro (hx | hx)
      · exact hL hx
      · exact hR hx

/-- Inner parent used in the C2 counterexample. -/
def c2Parent : BPTreeNode Int where
  keys := fun _ => 9
  children := fun j => [1, 2].getD j 0
  num_items := 1
  leaf := false

/-- Left sibling with exactly one free slot (key size 62, leaf capacity 4). -/
def c2Left : BPTreeNode Int where
  keys := fun j => (j : Int)
  children := fun _ => 0
  num_items := 3
  leaf := true

/-- Full leaf child (key size 62, leaf capacity 4). -/
def c2Node : BPTreeNode Int where
  keys := fun j => (10 + j : Int)
  children := fun _ => 0
  num_items := 4
  leaf := true

/-- Placeholder right sibling; `pos = parent.count`, so it is never
consulted. -/
def c2Right : BPTreeNode Int where
  keys := fun _ => 0
  children := fun _ => 0
  num_items := 0
  leaf := true

/-- C2 counterexample: the child at `pos = 1` is full, its left sibling has
one free slot, yet `RebalanceChild` returns the failure value because the
pending insert (position 2) is not at the child's right end and
`dest_free > 1` fails — refuting the claim that a single free slot always
suffices. -/
theorem C2_cex_one_free_slot :
    c2Node.num_items = MaxItems 62 c2Node ∧
    0 < AvailableSlotCount 62 c2Left ∧
    (RebalanceChild 62 c2Parent c2Left c2Node c2Right 1 2).res = none := by
  decide

/-- The combined key sequence `left sibling ++ separator ++ child` after
applying the pending insert at the location `RebalanceChild` returned
(statement glue for C4; `[]` in the cases the left branch cannot produce). -/
def combinedAfterInsertLeft (r : RCOut K) (sepSlot : Nat) (key : K) : List K :=
  match r.res with
  | some (.leftSib, p) =>
      (r.left.InsertItem p key).keyList ++ r.parent.keys sepSlot :: r.node.keyList
  | some (.child, p) =>
      r.left.keyList ++ r.parent.keys sepSlot :: (r.node.InsertItem p key).keyList
  | _ => []

/-- The combined key sequence `child ++ separator ++ right sibling` after
applying the pending insert at the location `RebalanceChild` returned
(statement glue for C4). -/
def combinedAfterInsertRight (r : RCOut K) (sepSlot : Nat) (key : K) : List K :=
  match r.res with
  | some (.child, p) =>
      (r.node.InsertItem p key).keyList ++ r.parent.keys sepSlot :: r.right.keyList
  | some (.rightSib, p) =>
      r.node.keyList ++ r.parent.keys sepSlot :: (r.right.InsertItem p key).keyList
  | _ => []

/-- C4: whenever `RebalanceChild` succeeds, inserting the pending key at the
returned `(node, insert_pos)` produces exactly the key sequence obtained by
inserting at the original logical position of the pre-rebalance
`sibling ++ separator ++ child` sequence (so in particular, if that insertion
respects strict ordering, so does the redirected one).  The left branch
redirects to the left sibling at `old left count + insert_pos + 1`; the
right branch is symmetric. -/
theorem C4_rebalance_insert_redirect (K : Type) [LinearOrder K] (s : Nat)
    (parent left node right : BPTreeNode K) (pos insert_pos : Nat) (key : K)
    (hfull : node.num_items = MaxItems s node)
    (hkl : left.leaf = node.leaf) (hkr : right.leaf = node.leaf)
    (hip : insert_pos ≤ node.num_items) :
    ((0 < pos ∧ 0 < AvailableSlotCount s left ∧
        (insert_pos = node.num_items ∨ 1 < AvailableSlotCount s left)) →
      combinedAfterInsertLeft (RebalanceChild s parent left node right pos insert_pos)
          (pos - 1) key
        = insertAt (left.keyList ++ parent.keys (pos - 1) :: node.keyList)
            (left.num_items + 1 + insert_pos) key ∧
      (List.Pairwise (· < ·)
          (insertAt (left.keyList ++ parent.keys (pos - 1) :: node.keyList)
            (left.num_items + 1 + insert_pos) key) →
        List.Pairwise (· < ·)
          (combinedAfterInsertLeft (RebalanceChild s parent left node right pos insert_pos)
            (pos - 1) key))) ∧
    (¬(0 < pos ∧ 0 < AvailableSlotCount s left ∧
        (insert_pos = node.num_items ∨ 1 < AvailableSlotCount s left)) →
      (pos < parent.num_items ∧ 0 < AvailableSlotCount s right ∧
        (insert_pos = 0 ∨ 1 < AvailableSlotCount s right)) →
      combinedAfterInsertRight (RebalanceChild s parent left node right pos insert_pos)
          pos key
        = insertAt (node.keyList ++ parent.keys pos :: right.keyList) insert_pos key ∧
      (List.Pairwise (· < ·)
          (insertAt (node.keyList ++ parent.keys pos :: right.keyList) insert_pos key) →
        List.Pairwise (· < ·)
          (combinedAfterInsertRight (RebalanceChild s parent left node right pos insert_pos)
            pos key))) := by
  constructor
  · intro hL
    have htm_pos := toMoveLeft_pos s left node insert_pos hL.2
    have htm_le := toMoveLeft_le s left node insert_pos hfull hkl
    obtain ⟨p1, p2, p3, p4, p5, s1, s2, s3, d1, d2, d3⟩ :=
      RebalanceChildToLeft_spec parent node left pos (toMoveLeft s left node insert_pos)
        htm_pos htm_le
    have hnodesplit : node.keyList
        = (List.range (toMoveLeft s left node insert_pos - 1)).map node.keys
          ++ node.keys (toMoveLeft s left node insert_pos - 1)
            :: (List.range (node.num_items - toMoveLeft s left node insert_pos)).map
                (fun x => node.keys (toMoveLeft s left node insert_pos + x)) := by
      rw [show node.keyList = (List.range node.num_items).map node.keys from rfl]
      rw [map_range_eq_append_cons node.keys node.num_items
        (toMoveLeft s left node insert_pos - 1) (by omega)]
      rw [show node.num_items - (toMoveLeft s left node insert_pos - 1) - 1
          = node.num_items - toMoveLeft s left node insert_pos from by omega]
      congr 1
      congr 1
      refine List.map_congr_left fun a ha => ?_
      congr 1
      omega
    have heq : combinedAfterInsertLeft
        (RebalanceChild s parent left node right pos insert_pos) (pos - 1) key
        = insertAt (left.keyList ++ parent.keys (pos - 1) :: node.keyList)
            (left.num_items + 1 + insert_pos) key := by
      rw [hnodesplit, RebalanceChild_left_success s parent left node right pos insert_pos hL]
      rw [show left.num_items + 1 + insert_pos = left.num_items + insert_pos + 1 from by omega]
      by_cases hcase : insert_pos < toMoveLeft s left node insert_pos
      · rw [if_pos hcase]
        simp only [combinedAfterInsertLeft, RCOut.res_mk, RCOut.parent_mk, RCOut.left_mk,
          RCOut.node_mk]
        rw [InsertItem_keyList _ _ _ (show left.num_items + insert_pos + 1
            ≤ (RebalanceChildToLeft parent node left pos
                (toMoveLeft s left node insert_pos)).2.2.num_items from by rw [d1]; omega)]
        rw [d3, p4, s3]
        rw [show left.keyList ++ parent.keys (pos - 1)
              :: ((List.range (toMoveLeft s left node insert_pos - 1)).map node.keys
                ++ node.keys (toMoveLeft s left node insert_pos - 1)
                  :: (List.range (node.num_items - toMoveLeft s left node insert_pos)).map
                      (fun x => node.keys (toMoveLeft s left node insert_pos + x)))
            = (left.keyList ++ parent.keys (pos - 1)
                :: (List.range (toMoveLeft s left node insert_pos - 1)).map node.keys)
              ++ node.keys (toMoveLeft s left node insert_pos - 1)
                :: (List.range (node.num_items - toMoveLeft s left node insert_pos)).map
                    (fun x => node.keys (toMoveLeft s left node insert_pos + x))
          from by simp]
        refine (insertAt_append_left _ _ ?_).symm
        have : (left.keyList ++ parent.keys (pos - 1)
            :: (List.range (toMoveLeft s left node insert_pos - 1)).map node.keys).length
            = left.num_items + toMoveLeft s left node insert_pos := by
          simp [keyList]
          omega
        omega
      · rw [if_neg hcase]
        simp only [combinedAfterInsertLeft, RCOut.res_mk, RCOut.parent_mk, RCOut.left_mk,
          RCOut.node_mk]
        rw [InsertItem_keyList _ _ _ (show insert_pos - toMoveLeft s left node insert_pos
            ≤ (RebalanceChildToLeft parent node left pos
                (toMoveLeft s left node insert_pos)).2.1.num_items from by rw [s1]; omega)]
        rw [d3, p4, s3]
        rw [show left.keyList ++ parent.keys (pos - 1)
              :: ((List.range (toMoveLeft s left node insert_pos - 1)).map node.keys
                ++ node.keys (toMoveLeft s left node insert_pos - 1)
                  :: (List.range (node.num_items - toMoveLeft s left node insert_pos)).map
                      (fun x => node.keys (toMoveLeft s left node insert_pos + x)))
            = (left.keyList ++ parent.keys (pos - 1)
                :: (List.range (toMoveLeft s left node insert_pos - 1)).map node.keys)
              ++ node.keys (toMoveLeft s left node insert_pos - 1)
                :: (List.range (node.num_items - toMoveLeft s left node insert_pos)).map
                    (fun x => node.keys (toMoveLeft s left node insert_pos + x))
          from by simp]
        rw [insertAt_middle_right]
        congr 1
        have : (left.keyList ++ parent.keys (pos - 1)
            :: (List.range (toMoveLeft s left node insert_pos - 1)).map node.keys).length
            = left.num_items + toMoveLeft s left node insert_pos := by
          simp [keyList]
          omega
        omega
    exact ⟨heq, fun hfit => heq ▸ hfit⟩
  · intro hnL hR
    rw [RebalanceChild_eq_rightPart s parent left node right pos insert_pos hnL,
      RebalanceChildRightPart_success s parent left node right pos insert_pos hR]
    have htm_pos := toMoveRight_pos s right insert_pos hR.2
    have htm_le := toMoveRight_le s right node insert_pos hfull hkr
    obtain ⟨p1, p2, p3, p4, p5, s1, s2, s3, d1, d2, d3⟩ :=
      RebalanceChildToRight_spec parent node right pos (toMoveRight s right insert_pos)
        htm_pos htm_le
    have hnodesplit : node.keyList
        = (List.range (node.num_items - toMoveRight s right insert_pos)).map node.keys
          ++ node.keys (node.num_items - toMoveRight s right insert_pos)
            :: (List.range (toMoveRight s right insert_pos - 1)).map
                (fun x => node.keys (node.num_items - toMoveRight s right insert_pos + 1 + x)) := by
      rw [show node.keyList = (List.range node.num_items).map node.keys from rfl]
      rw [map_range_eq_append_cons node.keys node.num_items
        (node.num_items - toMoveRight s right insert_pos) (by omega)]
      rw [show node.num_items - (node.num_items - toMoveRight s right insert_pos) - 1
          = toMoveRight s right insert_pos - 1 from by omega]
    have heq : combinedAfterInsertRight
        (if (RebalanceChildToRight parent node right pos
              (toMoveRight s right insert_pos)).2.1.num_items < insert_pos then
            ⟨some (.rightSib, insert_pos
                - ((RebalanceChildToRight parent node right pos
                    (toMoveRight s right insert_pos)).2.1.num_items + 1)),
              (RebalanceChildToRight parent node right pos
                (toMoveRight s right insert_pos)).1,
              left,
              (RebalanceChildToRight parent node right pos
                (toMoveRight s right insert_pos)).2.1,
              (RebalanceChildToRight parent node right pos
                (toMoveRight s right insert_pos)).2.2⟩
          else
            ⟨some (.child, insert_pos),
              (RebalanceChildToRight parent node right pos
                (toMoveRight s right insert_pos)).1,
              left,
              (RebalanceChildToRight parent node right pos
                (toMoveRight s right insert_pos)).2.1,
              (RebalanceChildToRight parent node right pos
                (toMoveRight s right insert_pos)).2.2⟩) pos key
        = insertAt (node.keyList ++ parent.keys pos :: right.keyList) insert_pos key := by
      rw [hnodesplit]
      by_cases hcase : (RebalanceChildToRight parent node right pos
          (toMoveRight s right insert_pos)).2.1.num_items < insert_pos
      · rw [if_pos hcase]
        rw [s1] at hcase
        simp only [combinedAfterInsertRight, RCOut.res_mk, RCOut.parent_mk, RCOut.node_mk,
          RCOut.right_mk]
        rw [s1]
        rw [InsertItem_keyList _ _ _ (show insert_pos
            - (node.num_items - toMoveRight s right insert_pos + 1)
            ≤ (RebalanceChildToRight parent node right pos
                (toMoveRight s right insert_pos)).2.2.num_items from by rw [d1]; omega)]
        rw [d3, p4, s3]
        rw [insertAt_append_left _ _ (show insert_pos
            - (node.num_items - toMoveRight s right insert_pos + 1)
            ≤ ((List.range (toMoveRight s right insert_pos - 1)).map
                (fun x => node.keys
                  (node.num_items - toMoveRight s right insert_pos + 1 + x))).length
            from by simp; omega)]
        rw [show ((List.range (node.num_items - toMoveRight s right insert_pos)).map node.keys
              ++ node.keys (node.num_items - toMoveRight s right insert_pos)
                :: (List.range (toMoveRight s right insert_pos - 1)).map
                    (fun x => node.keys
                      (node.num_items - toMoveRight s right insert_pos + 1 + x)))
            ++ parent.keys pos :: right.keyList
            = (List.range (node.num_items - toMoveRight s right insert_pos)).map node.keys
              ++ node.keys (node.num_items - toMoveRight s right insert_pos)
                :: ((List.range (toMoveRight s right insert_pos - 1)).map
                    (fun x => node.keys
                      (node.num_items - toMoveRight s right insert_pos + 1 + x))
                  ++ parent.keys pos :: right.keyList)
          from by simp]
        rw [insertAt_append_right _ _ (show
            ((List.range (node.num_items - toMoveRight s right insert_pos)).map
              node.keys).length ≤ insert_pos from by simp; omega)]
        congr 1
        rw [show insert_pos
            - ((List.range (node.num_items - toMoveRight s right insert_pos)).map
                node.keys).length
            = (insert_pos - (node.num_items - toMoveRight s right insert_pos + 1)) + 1
          from by simp; omega]
        rw [insertAt_cons]
        rw [insertAt_append_left _ _ (show insert_pos
            - (node.num_items - toMoveRight s right insert_pos + 1)
            ≤ ((List.range (toMoveRight s right insert_pos - 1)).map
                (fun x => node.keys
                  (node.num_items - toMoveRight s right insert_pos + 1 + x))).length
            from by simp; omega)]
      · rw [if_neg hcase]
        rw [s1] at hcase
        simp only [combinedAfterInsertRight, RCOut.res_mk, RCOut.parent_mk, RCOut.node_mk,
          RCOut.right_mk]
        rw [InsertItem_keyList _ _ _ (show insert_pos
            ≤ (RebalanceChildToRight parent node right pos
                (toMoveRight s right insert_pos)).2.1.num_items from by rw [s1]; omega)]
        rw [d3, p4, s3]
        rw [show ((List.range (node.num_items - toMoveRight s right insert_pos)).map node.keys
              ++ node.keys (node.num_items - toMoveRight s right insert_pos)
                :: (List.range (toMoveRight s right insert_pos - 1)).map
                    (fun x => node.keys
                      (node.num_items - toMoveRight s right insert_pos + 1 + x)))
            ++ parent.keys pos :: right.keyList
            = (List.range (node.num_items - toMoveRight s right insert_pos)).map node.keys
              ++ (node.keys (node.num_items - toMoveRight s right insert_pos)
                :: ((List.range (toMoveRight s right insert_pos - 1)).map
                    (fun x => node.keys
                      (node.num_items - toMoveRight s right insert_pos + 1 + x))
                  ++ parent.keys pos :: right.keyList))
          from by simp]
        rw [insertAt_append_left _ _ (show insert_pos
            ≤ ((List.range (node.num_items - toMoveRight s right insert_pos)).map
                node.keys).length from by simp; omega)]
    exact ⟨heq, fun hfit => heq ▸ hfit⟩

@[simp] theorem MOROut.mk_retired (a : Option SiblingTag) (p l n r : BPTreeNode K) :
    (MOROut.mk a p l n r).retired = a := rfl

@[simp] theorem MOROut.mk_parent (a : Option SiblingTag) (p l n r : BPTreeNode K) :
    (MOROut.mk a p l n r).parent = p := rfl

@[simp] theorem MOROut.mk_left (a : Option SiblingTag) (p l n r : BPTreeNode K) :
    (MOROut.mk a p l n r).left = l := rfl

@[simp] theorem MOROut.mk_node (a : Option SiblingTag) (p l n r : BPTreeNode K) :
    (MOROut.mk a p l n r).node = n := rfl

@[simp] theorem MOROut.mk_right (a : Option SiblingTag) (p l n r : BPTreeNode K) :
    (MOROut.mk a p l n r).right = r := rfl

/-- The count changes of `RebalanceChildToLeft` hold without preconditions. -/
theorem RebalanceChildToLeft_counts (parent src dest : BPTreeNode K) (cp cnt : Nat) :
    (RebalanceChildToLeft parent src dest cp cnt).1.num_items = parent.num_items ∧
    (RebalanceChildToLeft parent src dest cp cnt).2.1.num_items = src.num_items - cnt ∧
    (RebalanceChildToLeft parent src dest cp cnt).2.2.num_items = dest.num_items + cnt := by
  have hsrc1_frame : ∀ m : BPTreeNode K,
      (forUp cnt src.num_items (fun i s => s.setKey (i - cnt) (s.keys i)) m).num_items
        = m.num_items :=
    fun m => (@forUp_children_frame K cnt src.num_items
      (fun i s => s.setKey (i - cnt) (s.keys i)) (fun i a _ _ => ⟨rfl, rfl, rfl⟩) m).2.1
  have hdk_frame : ∀ m : BPTreeNode K,
      (forUp 1 cnt (fun i d => d.setKey (dest.num_items + i) (src.keys (i - 1))) m).num_items
        = m.num_items :=
    fun m => (@forUp_children_frame K 1 cnt
      (fun i d => d.setKey (dest.num_items + i) (src.keys (i - 1)))
      (fun i a _ _ => ⟨rfl, rfl, rfl⟩) m).2.1
  have hdc_frame : ∀ (w : Nat → Nat) (m : BPTreeNode K),
      (forUp 0 cnt (fun i d => d.setChild (1 + d.num_items + i) (w i)) m).num_items
        = m.num_items :=
    fun w m => (@forUp_keys_frame K 0 cnt (fun i d => d.setChild (1 + d.num_items + i) (w i))
      (fun i a _ _ => ⟨rfl, rfl, rfl⟩) m).2.1
  have hsc_frame : ∀ (hi : Nat) (m : BPTreeNode K),
      (forUp cnt hi
        (fun i s => (s.setChild (i - cnt) (s.children i)).setChild i 0) m).num_items
        = m.num_items :=
    fun hi m => (@forUp_keys_frame K cnt hi
      (fun i s => (s.setChild (i - cnt) (s.children i)).setChild i 0)
      (fun i a _ _ => ⟨rfl, rfl, rfl⟩) m).2.1
  refine ⟨?_, ?_, ?_⟩
  · simp only [RebalanceChildToLeft, setKey_num_items]
  · simp only [RebalanceChildToLeft, withNum_num_items]
    split
    · rw [hsrc1_frame]
    · rw [hsc_frame, hsrc1_frame]
  · simp only [RebalanceChildToLeft, withNum_num_items]
    split
    · rw [hdk_frame, setKey_num_items]
    · rw [hdc_frame, hdk_frame, setKey_num_items]

/-- The count changes of `RebalanceChildToRight` hold without preconditions. -/
theorem RebalanceChildToRight_counts (parent src dest : BPTreeNode K) (cp cnt : Nat) :
    (RebalanceChildToRight parent src dest cp cnt).1.num_items = parent.num_items ∧
    (RebalanceChildToRight parent src dest cp cnt).2.1.num_items = src.num_items - cnt ∧
    (RebalanceChildToRight parent src dest cp cnt).2.2.num_items = dest.num_items + cnt := by
  have hd1_frame : ∀ m : BPTreeNode K,
      (forDown dest.num_items (fun i d => d.setKey (i + cnt) (d.keys i)) m).num_items
        = m.num_items :=
    fun m => (@forDown_children_frame K dest.num_items
      (fun i d => d.setKey (i + cnt) (d.keys i)) (fun i a _ => ⟨rfl, rfl, rfl⟩) m).2.1
  have hd2_frame : ∀ m : BPTreeNode K,
      (forUp 1 cnt
        (fun i d => d.setKey (i - 1) (src.keys (src.num_items - cnt + i))) m).num_items
        = m.num_items :=
    fun m => (@forUp_children_frame K 1 cnt
      (fun i d => d.setKey (i - 1) (src.keys (src.num_items - cnt + i)))
      (fun i a _ _ => ⟨rfl, rfl, rfl⟩) m).2.1
  have hd4_frame : ∀ m : BPTreeNode K,
      (forDown (dest.num_items + 1)
        (fun i d => d.setChild (i + cnt) (d.children i)) m).num_items = m.num_items :=
    fun m => (@forDown_keys_frame K (dest.num_items + 1)
      (fun i d => d.setChild (i + cnt) (d.children i)) (fun i a _ => ⟨rfl, rfl, rfl⟩) m).2.1
  have hpair_frame : ∀ a : BPTreeNode K × BPTreeNode K,
      (forUp 0 cnt
        (fun i p => (p.1.setChild i (p.2.children (p.2.num_items - (cnt - 1) + i)),
          p.2.setChild (p.2.num_items - (cnt - 1) + i) 0)) a).1.num_items = a.1.num_items ∧
      (forUp 0 cnt
        (fun i p => (p.1.setChild i (p.2.children (p.2.num_items - (cnt - 1) + i)),
          p.2.setChild (p.2.num_items - (cnt - 1) + i) 0)) a).2.num_items
        = a.2.num_items := by
    intro a
    have h := @forUp_pair_frame K 0 cnt
      (fun i p => (p.1.setChild i (p.2.children (p.2.num_items - (cnt - 1) + i)),
        p.2.setChild (p.2.num_items - (cnt - 1) + i) 0))
      (fun i p _ _ => ⟨rfl, rfl, rfl, rfl, rfl, rfl⟩) a
    exact ⟨h.2.1, h.2.2.2.2.1⟩
  refine ⟨?_, ?_, ?_⟩
  · simp only [RebalanceChildToRight, setKey_num_items]
  · simp only [RebalanceChildToRight, withNum_num_items]
    split
    · rfl
    · simp only [hpair_frame]
  · simp only [RebalanceChildToRight, withNum_num_items]
    split
    · simp only [setKey_num_items, hd2_frame, hd1_frame]
    · simp only [hpair_frame, hd4_frame, setKey_num_items, hd2_frame, hd1_frame]

/-- C5: `MergeOrRebalanceChild` on a deficient child returns a retired node
exactly when a merge occurred; the left sibling absorbing yields the
deficient child itself (now empty), the right sibling being absorbed yields
the retired right sibling (now empty), and both merges drop the separator
and one child pointer from the parent.  Otherwise it rebalances by
`(sibling.count - node.count) / 2` items — from the right sibling when one
exists, else from the left — and returns `nullptr` with the parent's counts
unchanged. -/
theorem C5_merge_or_rebalance_child (K : Type) (s : Nat)
    (parent left node right : BPTreeNode K) (pos : Nat)
    (hcnt : 1 ≤ parent.num_items) (hpos : pos ≤ parent.num_items)
    (hmin : node.num_items < MinItems s node) (hpleaf : parent.leaf = false) :
    ((MergeOrRebalanceChild s parent left node right pos).retired ≠ none ↔
      ((0 < pos ∧ left.num_items + 1 + node.num_items ≤ MaxItems s left) ∨
       (pos < parent.num_items ∧
         node.num_items + 1 + right.num_items ≤ MaxItems s right))) ∧
    ((0 < pos ∧ left.num_items + 1 + node.num_items ≤ MaxItems s left) →
      (MergeOrRebalanceChild s parent left node right pos).retired = some .child ∧
      (MergeOrRebalanceChild s parent left node right pos).node.num_items = 0 ∧
      (MergeOrRebalanceChild s parent left node right pos).left.keyList
        = left.keyList ++ parent.keys (pos - 1) :: node.keyList ∧
      (MergeOrRebalanceChild s parent left node right pos).parent.num_items
        = parent.num_items - 1 ∧
      (MergeOrRebalanceChild s parent left node right pos).parent.keyList
        = parent.keyList.eraseIdx (pos - 1) ∧
      (MergeOrRebalanceChild s parent left node right pos).parent.childList
        = parent.childList.eraseIdx pos) ∧
    (¬(0 < pos ∧ left.num_items + 1 + node.num_items ≤ MaxItems s left) →
      pos < parent.num_items →
      node.num_items + 1 + right.num_items ≤ MaxItems s right →
      (MergeOrRebalanceChild s parent left node right pos).retired = some .rightSib ∧
      (MergeOrRebalanceChild s parent left node right pos).right.num_items = 0 ∧
      (MergeOrRebalanceChild s parent left node right pos).node.keyList
        = node.keyList ++ parent.keys pos :: right.keyList ∧
      (MergeOrRebalanceChild s parent left node right pos).parent.num_items
        = parent.num_items - 1 ∧
      (MergeOrRebalanceChild s parent left node right pos).parent.keyList
        = parent.keyList.eraseIdx pos ∧
      (MergeOrRebalanceChild s parent left node right pos).parent.childList
        = parent.childList.eraseIdx (pos + 1)) ∧
    (¬(0 < pos ∧ left.num_items + 1 + node.num_items ≤ MaxItems s left) →
      pos < parent.num_items →
      ¬(node.num_items + 1 + right.num_items ≤ MaxItems s right) →
      (MergeOrRebalanceChild s parent left node right pos).retired = none ∧
      (MergeOrRebalanceChild s parent left node right pos).parent.num_items
        = parent.num_items ∧
      (MergeOrRebalanceChild s parent left node right pos).node.num_items
        = node.num_items + (right.num_items - node.num_items) / 2 ∧
      (MergeOrRebalanceChild s parent left node right pos).right.num_items
        = right.num_items - (right.num_items - node.num_items) / 2) ∧
    (¬(0 < pos ∧ left.num_items + 1 + node.num_items ≤ MaxItems s left) →
      ¬(pos < parent.num_items) → 0 < pos →
      (MergeOrRebalanceChild s parent left node right pos).retired = none ∧
      (MergeOrRebalanceChild s parent left node right pos).parent.num_items
        = parent.num_items ∧
      (MergeOrRebalanceChild s parent left node right pos).node.num_items
        = node.num_items + (left.num_items - node.num_items) / 2 ∧
      (MergeOrRebalanceChild s parent left node right pos).left.num_items
        = left.num_items - (left.num_items - node.num_items) / 2) := by
  by_cases h1 : 0 < pos ∧ left.num_items + 1 + node.num_items ≤ MaxItems s left
  · obtain ⟨m1, m2, m3, m4, m5, m6⟩ := MergeFromRight_spec left (parent.keys (pos - 1)) node
    simp only [MergeOrRebalanceChild, if_pos h1, MOROut.mk_retired, MOROut.mk_parent,
      MOROut.mk_left, MOROut.mk_node, MOROut.mk_right]
    refine ⟨⟨fun _ => Or.inl h1, fun _ => by simp⟩, fun _ => ?_,
      fun hn => absurd h1 hn, fun hn => absurd h1 hn, fun hn => absurd h1 hn⟩
    refine ⟨trivial, m3, m5, ShiftLeft_num_items _ _ _,
      ShiftLeft_keyList _ _ _ (by omega), ?_⟩
    rw [ShiftLeft_childList _ _ _ (by omega) hpleaf]
    congr 1
    by_cases hlast : pos - 1 + 1 < parent.num_items
    · rw [if_pos hlast, if_pos (by decide)]
      omega
    · rw [if_neg hlast]
      omega
  · by_cases h2 : pos < parent.num_items
    · by_cases h3 : node.num_items + 1 + right.num_items ≤ MaxItems s right
      · obtain ⟨m1, m2, m3, m4, m5, m6⟩ := MergeFromRight_spec node (parent.keys pos) right
        simp only [MergeOrRebalanceChild, if_neg h1, if_pos h2, if_pos h3,
          MOROut.mk_retired, MOROut.mk_parent, MOROut.mk_left, MOROut.mk_node,
          MOROut.mk_right]
        refine ⟨⟨fun _ => Or.inr ⟨h2, h3⟩, fun _ => by simp⟩, fun hx => absurd hx h1,
          fun _ _ _ => ?_, fun _ _ hn3 => absurd h3 hn3, fun _ hn2 => absurd h2 hn2⟩
        refine ⟨trivial, m3, m5, ShiftLeft_num_items _ _ _,
          ShiftLeft_keyList _ _ _ (by omega), ?_⟩
        rw [ShiftLeft_childList _ _ _ (by omega) hpleaf]
        congr 1
        by_cases hlast : pos + 1 < parent.num_items
        · rw [if_pos hlast, if_pos (by decide)]
        · rw [if_neg hlast]
          omega
      · obtain ⟨c1, c2, c3⟩ := RebalanceChildToLeft_counts parent right node (pos + 1)
          ((right.num_items - node.num_items) / 2)
        simp only [MergeOrRebalanceChild, if_neg h1, if_pos h2, if_neg h3,
          MOROut.mk_retired, MOROut.mk_parent, MOROut.mk_left, MOROut.mk_node,
          MOROut.mk_right]
        refine ⟨⟨fun hx => absurd rfl hx, fun hx => ?_⟩, fun hx => absurd hx h1,
          fun _ _ hx3 => absurd hx3 h3, fun _ _ _ => ⟨trivial, c1, c3, c2⟩,
          fun _ hn2 => absurd h2 hn2⟩
        rcases hx with hx | hx
        · exact absurd hx h1
        · exact absurd hx.2 h3
    · by_cases h4 : 0 < pos
      · obtain ⟨c1, c2, c3⟩ := RebalanceChildToRight_counts parent left node (pos - 1)
          ((left.num_items - node.num_items) / 2)
        simp only [MergeOrRebalanceChild, if_neg h1, if_neg h2, if_pos h4,
          MOROut.mk_retired, MOROut.mk_parent, MOROut.mk_left, MOROut.mk_node,
          MOROut.mk_right]
        refine ⟨⟨fun hx => absurd rfl hx, fun hx => ?_⟩, fun hx => absurd hx h1,
          fun _ hx2 => absurd hx2 h2, fun _ hx2 => absurd hx2 h2,
          fun _ _ _ => ⟨trivial, c1, c3, c2⟩⟩
        rcases hx with hx | hx
        · exact absurd hx h1
        · exact absurd hx.1 h2
      · omega

/-- `MinItems()` is half of `MaxItems()` for both node kinds. -/
theorem MinItems_eq_half (s : Nat) (n : BPTreeNode K) :
    MinItems s n = MaxItems s n / 2 := by
  by_cases h : n.leaf <;>
    simp [MinItems, MaxItems, kMinLeafKeys, kMinInnerKeys, h]

/-- C10 (amended): in `MergeOrRebalanceChild`, under the stated
preconditions plus the additional requirement that the deficient child is
nonempty, whenever a rebalance branch runs the transfer size
`to_move = (sibling.count - node.count) / 2` satisfies
`1 ≤ to_move < sibling.count` and the deficient child has at least
`to_move` free slots, so every assertion inside the called
`RebalanceChildToLeft` / `RebalanceChildToRight` holds (including
`dest_items > 0` on the right-shift path, which the original preconditions
alone do not guarantee). -/
theorem C10_rebalance_asserts_amended (K : Type) (s : Nat)
    (parent left node right : BPTreeNode K) (pos : Nat)
    (hcnt : 1 ≤ parent.num_items) (hpos : pos ≤ parent.num_items)
    (hmin : node.num_items < MinItems s node)
    (hkl : left.leaf = node.leaf) (hkr : right.leaf = node.leaf)
    (hlmin : MinItems s left ≤ left.num_items)
    (hlmax : left.num_items ≤ MaxItems s left)
    (hrmin : MinItems s right ≤ right.num_items)
    (hrmax : right.num_items ≤ MaxItems s right)
    (hnode : 1 ≤ node.num_items) :
    (¬(0 < pos ∧ left.num_items + 1 + node.num_items ≤ MaxItems s left) →
      pos < parent.num_items →
      ¬(node.num_items + 1 + right.num_items ≤ MaxItems s right) →
      (MergeOrRebalanceChild s parent left node right pos).retired = none ∧
      1 ≤ (right.num_items - node.num_items) / 2 ∧
      (right.num_items - node.num_items) / 2 < right.num_items ∧
      (right.num_items - node.num_items) / 2 ≤ AvailableSlotCount s node) ∧
    (¬(0 < pos ∧ left.num_items + 1 + node.num_items ≤ MaxItems s left) →
      ¬(pos < parent.num_items) → 0 < pos →
      (MergeOrRebalanceChild s parent left node right pos).retired = none ∧
      1 ≤ (left.num_items - node.num_items) / 2 ∧
      (left.num_items - node.num_items) / 2 < left.num_items ∧
      (left.num_items - node.num_items) / 2 ≤ AvailableSlotCount s node ∧
      pos - 1 < parent.num_items ∧
      0 < node.num_items) := by
  have hhalf : MinItems s node = MaxItems s node / 2 := MinItems_eq_half s node
  have hMl : MaxItems s left = MaxItems s node := by simp only [MaxItems, hkl]
  have hMr : MaxItems s right = MaxItems s node := by simp only [MaxItems, hkr]
  have hml : MinItems s left = MinItems s node := by simp only [MinItems, hkl]
  have hmr : MinItems s right = MinItems s node := by simp only [MinItems, hkr]
  rw [hMl] at hlmax
  rw [hMr] at hrmax
  rw [hml, hhalf] at hlmin
  rw [hmr, hhalf] at hrmin
  rw [hhalf] at hmin
  refine ⟨fun h1 h2 h3 => ?_, fun h1 h2 h4 => ?_⟩
  · have h3' : MaxItems s node < node.num_items + 1 + right.num_items := by
      rw [hMr] at h3
      omega
    refine ⟨?_, ?_, ?_, ?_⟩
    · simp only [MergeOrRebalanceChild, if_neg h1, if_pos h2, if_neg h3,
        MOROut.mk_retired]
    · omega
    · omega
    · simp only [AvailableSlotCount]
      omega
  · have h1' : MaxItems s node < left.num_items + 1 + node.num_items := by
      by_cases hf : left.num_items + 1 + node.num_items ≤ MaxItems s left
      · exact absurd ⟨h4, hf⟩ h1
      · rw [hMl] at hf
        omega
    refine ⟨?_, ?_, ?_, ?_, ?_, ?_⟩
    · simp only [MergeOrRebalanceChild, if_neg h1, if_neg h2, if_pos h4,
        MOROut.mk_retired]
    · omega
    · omega
    · simp only [AvailableSlotCount]
      omega
    · omega
    · omega

def c10Parent : BPTreeNode Nat :=
  { keys := fun _ => 100, children := fun _ => 1, num_items := 1, leaf := false }

def c10Left : BPTreeNode Nat :=
  { keys := fun i => 10 * i + 10, children := fun _ => 0, num_items := 4, leaf := true }

def c10Node : BPTreeNode Nat :=
  { keys := fun _ => 0, children := fun _ => 0, num_items := 0, leaf := true }

def c10Right : BPTreeNode Nat :=
  { keys := fun i => 200 + i, children := fun _ => 0, num_items := 2, leaf := true }

def c10wNode : BPTreeNode Nat :=
  { keys := fun _ => 150, children := fun _ => 0, num_items := 1, leaf := true }

/-- C10 counterexample (key size 62, leaf capacity 4, leaf minimum 2): the
child at `pos = 1` is an empty leaf (below minimum), the left sibling is a
full in-bounds leaf so the left merge fails, there is no right sibling, and
the left-rebalance branch runs (`retired = none`) — yet the deficient
child, which is the destination of `RebalanceChildToRight`, is empty, so the
`dest_items > 0` assertion inside that call is violated even though every
stated precondition holds. -/
theorem C10_cex_empty_dest :
    c10Node.num_items < MinItems 62 c10Node ∧
    MinItems 62 c10Left ≤ c10Left.num_items ∧
    c10Left.num_items ≤ MaxItems 62 c10Left ∧
    MinItems 62 c10Right ≤ c10Right.num_items ∧
    c10Right.num_items ≤ MaxItems 62 c10Right ∧
    1 ≤ c10Parent.num_items ∧
    ¬(c10Left.num_items + 1 + c10Node.num_items ≤ MaxItems 62 c10Left) ∧
    ¬((1 : Nat) < c10Parent.num_items) ∧
    (MergeOrRebalanceChild 62 c10Parent c10Left c10Node c10Right 1).retired
      = none ∧
    ¬(0 < c10Node.num_items) := by
  decide

theorem C10_rebalance_asserts_amended_witness :
    (MergeOrRebalanceChild 62 c10Parent c10Left c10wNode c10Right 1).retired
      = none ∧
    1 ≤ (c10Left.num_items - c10wNode.num_items) / 2 ∧
    (c10Left.num_items - c10wNode.num_items) / 2 < c10Left.num_items ∧
    (c10Left.num_items - c10wNode.num_items) / 2
      ≤ AvailableSlotCount 62 c10wNode ∧
    1 - 1 < c10Parent.num_items ∧
    0 < c10wNode.num_items :=
  (C10_rebalance_asserts_amended Nat 62 c10Parent c10Left c10wNode c10Right 1
    (by decide) (by decide) (by decide) rfl rfl (by decide) (by decide)
    (by decide) (by decide) (by decide)).2 (by decide) (by decide) (by decide)

def c1cmp : Nat → Nat → Int := fun a b => (a : Int) - (b : Int)

def c1Node : BPTreeNode Nat :=
  { keys := fun i => 10 * i, children := fun _ => 0, num_items := 3, leaf := true }

theorem C1_bsearch_smallest_geq_witness :
    (c1Node.BSearch 10 c1cmp).index ≤ c1Node.num_items ∧
    ((c1Node.BSearch 10 c1cmp).index = c1Node.num_items ∨
      c1cmp 10 (c1Node.keys (c1Node.BSearch 10 c1cmp).index) ≤ 0) ∧
    (∀ j, j < (c1Node.BSearch 10 c1cmp).index → 0 < c1cmp 10 (c1Node.keys j)) ∧
    ((c1Node.BSearch 10 c1cmp).found = true ↔
      ((c1Node.BSearch 10 c1cmp).index < c1Node.num_items ∧
        c1cmp 10 (c1Node.keys (c1Node.BSearch 10 c1cmp).index) = 0)) :=
  C1_bsearch_smallest_geq Nat c1cmp c1Node 10 (by decide)
    (fun a b c h1 h2 => by
      simp only [c1cmp] at h1 h2 ⊢
      omega)

theorem C2_rebalance_child_amended_witness :
    (RebalanceChild 62 c2Parent c2Left c2Node c2Right 1 4).left.num_items
        = c2Left.num_items + toMoveLeft 62 c2Left c2Node 4 ∧
    (RebalanceChild 62 c2Parent c2Left c2Node c2Right 1 4).node.num_items
        = c2Node.num_items - toMoveLeft 62 c2Left c2Node 4 ∧
    (RebalanceChild 62 c2Parent c2Left c2Node c2Right 1 4).res ≠ none :=
  (C2_rebalance_child_amended Int 62 c2Parent c2Left c2Node c2Right 1 4
    (by decide) rfl rfl).2.1 (by decide)

def c3Node : BPTreeNode Int :=
  { keys := fun i => (i : Int), children := fun _ => 0, num_items := 3, leaf := true }

def c3Scratch : BPTreeNode Int :=
  { keys := fun _ => 0, children := fun _ => 0, num_items := 0, leaf := true }

theorem C3_split_median_extraction_witness :
    (c3Node.Split c3Scratch).2.2 = c3Node.keys (c3Node.num_items / 2) ∧
    (c3Node.Split c3Scratch).1.num_items = c3Node.num_items / 2 ∧
    (c3Node.Split c3Scratch).2.1.num_items
      = c3Node.num_items - (c3Node.num_items / 2 + 1) ∧
    (c3Node.Split c3Scratch).1.num_items + (c3Node.Split c3Scratch).2.1.num_items + 1
      = c3Node.num_items ∧
    (c3Node.Split c3Scratch).2.1.leaf = c3Node.leaf ∧
    (c3Node.Split c3Scratch).1.keyList
      = (List.range (c3Node.num_items / 2)).map c3Node.keys ∧
    (c3Node.Split c3Scratch).2.1.keyList
      = (List.range (c3Node.num_items - (c3Node.num_items / 2 + 1))).map
          (fun x => c3Node.keys (c3Node.num_items / 2 + 1 + x)) ∧
    (c3Node.leaf = false →
      (c3Node.Split c3Scratch).2.1.childList
        = (List.range (c3Node.num_items - (c3Node.num_items / 2 + 1) + 1)).map
            (fun x => c3Node.children (c3Node.num_items / 2 + 1 + x))) ∧
    (∀ k ∈ (c3Node.Split c3Scratch).1.keyList, k < (c3Node.Split c3Scratch).2.2) ∧
    (∀ k ∈ (c3Node.Split c3Scratch).2.1.keyList, (c3Node.Split c3Scratch).2.2 < k) ∧
    (c3Node.Split c3Scratch).1.keyList.Pairwise (· < ·) ∧
    (c3Node.Split c3Scratch).2.1.keyList.Pairwise (· < ·) :=
  C3_split_median_extraction Int c3Node c3Scratch (by decide) (by decide)

def c4Parent : BPTreeNode Int :=
  { keys := fun _ => 30, children := fun j => [1, 2].getD j 0, num_items := 1,
    leaf := false }

def c4Left : BPTreeNode Int :=
  { keys := fun i => 10 + 10 * i, children := fun _ => 0, num_items := 2, leaf := true }

def c4Node : BPTreeNode Int :=
  { keys := fun i => 40 + 10 * i, children := fun _ => 0, num_items := 4, leaf := true }

def c4Right : BPTreeNode Int :=
  { keys := fun _ => 0, children := fun _ => 0, num_items := 0, leaf := true }

theorem C4_rebalance_insert_redirect_witness :
    combinedAfterInsertLeft (RebalanceChild 62 c4Parent c4Left c4Node c4Right 1 2)
        (1 - 1) 55
      = insertAt (c4Left.keyList ++ c4Parent.keys (1 - 1) :: c4Node.keyList)
          (c4Left.num_items + 1 + 2) 55 ∧
    (List.Pairwise (· < ·)
        (insertAt (c4Left.keyList ++ c4Parent.keys (1 - 1) :: c4Node.keyList)
          (c4Left.num_items + 1 + 2) 55) →
      List.Pairwise (· < ·)
        (combinedAfterInsertLeft (RebalanceChild 62 c4Parent c4Left c4Node c4Right 1 2)
          (1 - 1) 55)) :=
  (C4_rebalance_insert_redirect Int 62 c4Parent c4Left c4Node c4Right 1 2 55
    (by decide) rfl rfl (by decide)).1 (by decide)

def c5Parent : BPTreeNode Int :=
  { keys := fun _ => 100, children := fun j => [1, 2].getD j 0, num_items := 1,
    leaf := false }

def c5Left : BPTreeNode Int :=
  { keys := fun i => 10 + 10 * i, children := fun _ => 0, num_items := 2, leaf := true }

def c5Node : BPTreeNode Int :=
  { keys := fun _ => 150, children := fun _ => 0, num_items := 1, leaf := true }

def c5Right : BPTreeNode Int :=
  { keys := fun i => 200 + i, children := fun _ => 0, num_items := 2, leaf := true }

theorem C5_merge_or_rebalance_child_witness :
    (MergeOrRebalanceChild 62 c5Parent c5Left c5Node c5Right 1).retired
      = some .child ∧
    (MergeOrRebalanceChild 62 c5Parent c5Left c5Node c5Right 1).node.num_items = 0 ∧
    (MergeOrRebalanceChild 62 c5Parent c5Left c5Node c5Right 1).left.keyList
      = c5Left.keyList ++ c5Parent.keys (1 - 1) :: c5Node.keyList ∧
    (MergeOrRebalanceChild 62 c5Parent c5Left c5Node c5Right 1).parent.num_items
      = c5Parent.num_items - 1 ∧
    (MergeOrRebalanceChild 62 c5Parent c5Left c5Node c5Right 1).parent.keyList
      = c5Parent.keyList.eraseIdx (1 - 1) ∧
    (MergeOrRebalanceChild 62 c5Parent c5Left c5Node c5Right 1).parent.childList
      = c5Parent.childList.eraseIdx 1 :=
  (C5_merge_or_rebalance_child Int 62 c5Parent c5Left c5Node c5Right 1
    (by decide) (by decide) (by decide) rfl).2.1 (by decide)

def c6N : BPTreeNode Int :=
  { keys := fun i => (1 + i : Int), children := fun _ => 0, num_items := 2,
    leaf := true }

def c6R : BPTreeNode Int :=
  { keys := fun i => (4 + i : Int), children := fun _ => 0, num_items := 1,
    leaf := true }

theorem C6_merge_from_right_witness :
    (c6N.MergeFromRight 3 c6R).1.keyList = c6N.keyList ++ 3 :: c6R.keyList ∧
    (c6N.leaf = false →
      (c6N.MergeFromRight 3 c6R).1.childList = c6N.childList ++ c6R.childList) ∧
    (c6N.MergeFromRight 3 c6R).1.num_items = c6N.num_items + 1 + c6R.num_items ∧
    (c6N.MergeFromRight 3 c6R).2.num_items = 0 :=
  C6_merge_from_right Int 62 c6N c6R 3 (by decide) rfl

def c7wNode : BPTreeNode Int :=
  { keys := fun i => (1 + i : Int), children := fun j => [10, 20, 30].getD j 0,
    num_items := 2, leaf := false }

theorem C7_shift_left_amended_witness :
    (c7wNode.ShiftLeft 0 true).num_items = c7wNode.num_items - 1 ∧
    (c7wNode.ShiftLeft 0 true).keyList = c7wNode.keyList.eraseIdx 0 ∧
    (c7wNode.leaf = false →
      (c7wNode.ShiftLeft 0 true).childList
        = c7wNode.childList.eraseIdx
            (if 0 + 1 < c7wNode.num_items then (if true then 0 + 1 else 0)
              else c7wNode.num_items)) :=
  C7_shift_left_amended Int c7wNode 0 true (by decide)

def c8P : BPTreeNode Int :=
  { keys := fun _ => 100, children := fun j => [1, 2].getD j 0, num_items := 1,
    leaf := false }

def c8S : BPTreeNode Int :=
  { keys := fun i => 200 + i, children := fun _ => 0, num_items := 2, leaf := true }

def c8D : BPTreeNode Int :=
  { keys := fun _ => 50, children := fun _ => 0, num_items := 1, leaf := true }

theorem C8_rebalance_preserves_parent_and_keys_witness :
    (RebalanceChildToLeft c8P c8S c8D 1 1).1.num_items = c8P.num_items ∧
    (RebalanceChildToLeft c8P c8S c8D 1 1).1.children = c8P.children ∧
    (∀ j, j ≠ 1 - 1 →
      (RebalanceChildToLeft c8P c8S c8D 1 1).1.keys j = c8P.keys j) ∧
    (RebalanceChildToLeft c8P c8S c8D 1 1).2.2.num_items = c8D.num_items + 1 ∧
    (RebalanceChildToLeft c8P c8S c8D 1 1).2.1.num_items = c8S.num_items - 1 ∧
    (((RebalanceChildToLeft c8P c8S c8D 1 1).2.2.keyList
        ++ (RebalanceChildToLeft c8P c8S c8D 1 1).1.keys (1 - 1)
          :: (RebalanceChildToLeft c8P c8S c8D 1 1).2.1.keyList : Multiset Int)
      = (c8D.keyList ++ c8P.keys (1 - 1) :: c8S.keyList : Multiset Int)) :=
  (C8_rebalance_preserves_parent_and_keys Int 62 c8P c8S c8D 1 1 c8P c8S c8D 0 1
    (by decide) (by decide) (by decide) (by decide) (by decide) (by decide)
    (by decide) (by decide) (by decide)).1

end BPTreeNode

/-- C9 helper: `kMaxLeafKeys` is antitone in the key size. -/
theorem kMaxLeafKeys_le (s : Nat) (h : 2 ≤ s) : kMaxLeafKeys s ≤ kMaxLeafKeys 2 := by
  unfold kMaxLeafKeys kBPNodeSize kKeyOffset
  exact Nat.div_le_div_left h (by omega)

/-- C9: for every supported key size `s ≥ 2` the derived leaf capacity
`kMaxLeafKeys s = ⌊(256 - 8) / s⌋` is strictly below 128 (so the count fits the
7-bit header field), and for 8-byte keys `kMaxLeafKeys 8 = 31` and
`kMaxInnerKeys 8 = ⌊(256 - 8 - 8) / (8 + 8)⌋ = 15`. -/
theorem C9_layout_constants (s : Nat) (hs : 2 ≤ s) :
    kMaxLeafKeys s < 128 ∧ kMaxLeafKeys 8 = 31 ∧ kMaxInnerKeys 8 = 15 := by
  refine ⟨Nat.lt_of_le_of_lt (kMaxLeafKeys_le s hs) (by decide), by decide, by decide⟩

/-- C9 witness: the theorem instantiated at the smallest supported key size. -/
theorem C9_layout_constants_witness :
    kMaxLeafKeys 2 < 128 ∧ kMaxLeafKeys 8 = 31 ∧ kMaxInnerKeys 8 = 15 :=
  C9_layout_constants 2 (by decide)

end Dfly
